import Mathlib

/-!
Verification of the OLM-to-EML converter (`olm_to_eml_converter.py`).

The program converts an Outlook-for-Mac archive (a ZIP container) into
individual EML message files.  All text is modelled as `List Char`
(`Str` below); machine-level byte decoding (`bytes.decode('utf-8',
errors='ignore')`) is modelled as the identity on already-decoded text.
External collaborators (the `zipfile` container primitive, the
`xml.etree.ElementTree` parser, and the system clock) are modelled as
oracles: an archive is either a tree of located records or invalid, a
record's bytes either parse to an `Xml` tree or do not, and `now` is an
explicit `PyDateTime` argument.
-/

abbrev Str := List Char

/-- Python's ASCII whitespace class `\s` (and `str.strip` / `str.split`
whitespace), restricted to the ASCII range used by the records. -/
def wsChar (c : Char) : Bool :=
  c == ' ' || c == '\t' || c == '\n' || c == '\r' || c == '\x0b' || c == '\x0c'

/-- The character class `[\n\r]` excluded by the header-value captures. -/
def nlChar (c : Char) : Bool := c == '\n' || c == '\r'

/-- `str.strip()`: remove leading and trailing whitespace. -/
def stripEnds (s : Str) : Str :=
  ((s.dropWhile wsChar).reverse.dropWhile wsChar).reverse

/-- Decimal digit character for a digit value (used by `strftime`
zero-padded fields and by the `%05d` filename counter). -/
def digitChar (d : Nat) : Char := Char.ofNat (48 + d % 10)

/-- Decimal digits of `n`, most significant first (fuel-based so that it
reduces definitionally; the fuel `n+1` always suffices). -/
def natDigitsAux : Nat → Nat → Str
  | 0, _ => []
  | f+1, n => if n < 10 then [digitChar n] else natDigitsAux f (n / 10) ++ [digitChar (n % 10)]

def natDigits (n : Nat) : Str := natDigitsAux (n + 1) n

/-- Python `f"{n:05d}"`: zero-pad to five digits (wider numbers print in
full). -/
def padNum5 (n : Nat) : Str :=
  let ds := natDigits n
  List.replicate (5 - ds.length) '0' ++ ds

/-- Two-digit zero-padded field of `strftime` (`%d`, `%H`, `%M`, `%S`);
all values supplied by the program are below 100. -/
def pad2 (n : Nat) : Str := [digitChar (n / 10), digitChar n]

/-- Split a text into its lines at `'\n'` (the line structure of the
emitted EML text). -/
def splitNl : Str → List Str
  | [] => [[]]
  | c :: r =>
    if c = '\n' then [] :: splitNl r
    else
      match splitNl r with
      | h :: t => (c :: h) :: t
      | [] => [[c]]

/-- `re.sub(r'\s+', ' ', body)`: collapse every maximal whitespace run to
a single space.  The flag records whether the scanner is inside a run. -/
def collapseAux : Bool → Str → Str
  | _, [] => []
  | inRun, c :: r =>
    if wsChar c then
      if inRun then collapseAux true r else ' ' :: collapseAux true r
    else c :: collapseAux false r

def collapseWs (s : Str) : Str := collapseAux false s

/-- HTML character references recognised by the model of
`html.unescape` (a subset of the HTML5 table: the five predefined
entities, with the legacy semicolon-less forms `html.unescape` also
accepts for `amp`/`lt`/`gt`/`quot`).  Longer forms precede their
prefixes so that the first match is the longest match. -/
def entTable : List (Str × Char) :=
  [("&amp;".toList, '&'), ("&amp".toList, '&'),
   ("&lt;".toList, '<'), ("&lt".toList, '<'),
   ("&gt;".toList, '>'), ("&gt".toList, '>'),
   ("&quot;".toList, '"'), ("&quot".toList, '"'),
   ("&#39;".toList, '\''), ("&apos;".toList, '\'')]

/-- The character reference, if any, starting at the head of `s`. -/
def entAt (s : Str) : Option (Str × Char) :=
  entTable.find? (fun e => e.1.isPrefixOf s)

/-- `html.unescape`, single left-to-right pass: each recognised
reference is replaced by its character and scanning resumes after it;
replacement output is never rescanned.  Fuel-based (each step consumes
at least one character, so fuel `s.length` suffices). -/
def unescF : Nat → Str → Str
  | 0, s => s
  | _, [] => []
  | f+1, c :: r =>
    match entAt (c :: r) with
    | some e => e.2 :: unescF f (r.drop (e.1.length - 1))
    | none => c :: unescF f r

def unescape (s : Str) : Str := unescF s.length s

/-- `re.sub(r'<[^>]+>', '', body)`: left-to-right scan removing every
`<`…`>` group with a non-empty `>`-free interior; a `<` that starts no
such group is kept.  Fuel-based for definitional reduction. -/
def stripTagsF : Nat → Str → Str
  | 0, s => s
  | _, [] => []
  | f+1, c :: r =>
    if c = '<' then
      let t := r.takeWhile (fun x => x ≠ '>')
      if t ≠ [] ∧ t.length < r.length then stripTagsF f (r.drop (t.length + 1))
      else c :: stripTagsF f r
    else c :: stripTagsF f r

def stripTags (s : Str) : Str := stripTagsF s.length s

/-- The HTML-to-text body normalisation of `_extract_email_from_xml`
(lines 156-159): strip tags, decode entities, collapse whitespace,
strip the ends.  Applied only when the body starts with `<`. -/
def cleanBody (body : Str) : Str :=
  if body ≠ [] ∧ body.headD ' ' = '<' then
    stripEnds (collapseWs (unescape (stripTags body)))
  else body

/-- A parsed timestamp as produced by `datetime.fromisoformat`:
calendar fields plus an optional UTC offset in microseconds (Python
keeps sub-minute offset components and `%z` prints them). -/
structure PyDateTime where
  year : Nat
  month : Nat
  day : Nat
  hour : Nat
  minute : Nat
  second : Nat
  tz : Option Int
deriving DecidableEq, Repr

def isLeap (y : Nat) : Bool := y % 4 == 0 && (y % 100 != 0 || y % 400 == 0)

def daysInMonth (y m : Nat) : Nat :=
  List.getD [31, if isLeap y then 29 else 28, 31, 30, 31, 30, 31, 31, 30, 31, 30, 31] (m - 1) 0

def digitVal (c : Char) : Option Nat :=
  if '0' ≤ c ∧ c ≤ '9' then some (c.toNat - 48) else none

def isDig (c : Char) : Bool := (digitVal c).isSome

/-- Exactly `n` ASCII digits read at position `pos` (a missing character
is treated like the non-digit terminator the C parser reads there). -/
def parseDigitsAt : Str → Nat → Nat → Option Nat
  | _, _, 0 => some 0
  | s, pos, n + 1 => do
    let c ← s[pos]?
    let d ← digitVal c
    let v ← parseDigitsAt s (pos + 1) n
    pure (d * 10 ^ n + v)

/-- Cumulative days before each month in a non-leap year. -/
def daysBeforeMonthTable : List Nat :=
  [0, 31, 59, 90, 120, 151, 181, 212, 243, 273, 304, 334]

/-- Days in the years before year `y` (proleptic Gregorian, year 1 first). -/
def daysBeforeYear (y : Nat) : Nat :=
  (y - 1) * 365 + ((y - 1) / 4 - (y - 1) / 100) + (y - 1) / 400

def DI400Y : Nat := 146097
def DI100Y : Nat := 36524
def DI4Y : Nat := 1461

/-- Ordinal day number (1 = 0001-01-01) to `(year, month, day)`,
following the 400-year-cycle algorithm of `datetime._ord2ymd`. -/
def ord2ymd (n0 : Nat) : Nat × Nat × Nat :=
  let n := n0 - 1
  let n400 := n / DI400Y
  let r400 := n % DI400Y
  let n100 := r400 / DI100Y
  let r100 := r400 % DI100Y
  let n4 := r100 / DI4Y
  let r4 := r100 % DI4Y
  let n1 := r4 / 365
  let r := r4 % 365
  let year := n400 * 400 + 1 + n100 * 100 + n4 * 4 + n1
  if n1 = 4 ∨ n100 = 4 then (year - 1, 12, 31)
  else
    let leap := n1 = 3 ∧ (n4 ≠ 24 ∨ n100 = 3)
    let month := (r + 50) / 32
    let preceding := daysBeforeMonthTable.getD (month - 1) 0 + (if 2 < month ∧ leap then 1 else 0)
    if preceding > r then
      let month' := month - 1
      let prec' := preceding -
        (List.getD [31, 28, 31, 30, 31, 30, 31, 31, 30, 31, 30, 31] (month' - 1) 0 +
          (if month' = 2 ∧ leap then 1 else 0))
      (year, month', r - prec' + 1)
    else (year, month, r - preceding + 1)

/-- Ordinal of the Monday starting ISO week 1 of `y`
(`datetime._isoweek1monday`). -/
def isoweek1monday (y : Nat) : Nat :=
  let firstday := daysBeforeYear y + 1
  let firstweekday := (firstday + 6) % 7
  let w := firstday - firstweekday
  if firstweekday > 3 then w + 7 else w

/-- ISO calendar `(year, week, day)` to Gregorian, with the range checks
of `datetime._isoweek_to_gregorian` (week 53 only in long years). -/
def isoToGregorian (year week day : Nat) : Option (Nat × Nat × Nat) :=
  if ¬ (1 ≤ year ∧ year ≤ 9999) then none
  else if ¬ (0 < week ∧ week < 53) ∧
          ¬ (week = 53 ∧
              (let fw := (daysBeforeYear year + 1) % 7
               fw = 4 ∨ (fw = 3 ∧ isLeap year = true))) then none
  else if ¬ (0 < day ∧ day < 8) then none
  else some (ord2ymd (isoweek1monday year + (week - 1) * 7 + (day - 1)))

/-- Index splitting date from time in an isoformat string, following the
disambiguation of `_find_isoformat_datetime_separator` (extended or
basic dates, ISO week dates).  Called only on strings of length ≥ 7. -/
def findSep (d : Str) : Option Nat :=
  let L := d.length
  if L = 7 then some 7
  else if d[4]? = some '-' then
    if d[5]? = some 'W' then
      if L > 8 ∧ d[8]? = some '-' then
        if L = 9 then none
        else if L > 10 ∧ (d[10]?.elim false isDig) then some 8
        else some 10
      else some 8
    else some 10
  else
    if d[4]? = some 'W' then
      let idx := 7 + ((d.drop 7).takeWhile isDig).length
      if idx < 9 then some idx
      else if idx % 2 = 0 then some 7 else some 8
    else some 8

/-- Date portion of `fromisoformat` (C `parse_isoformat_date`): a
positional parse over the full string; `sep` bounds the week-day field. -/
def parseDateC (full : Str) (sep : Nat) : Option (Nat × Nat × Nat) := do
  let year ← parseDigitsAt full 0 4
  let hasSep := full[4]? = some '-'
  let pos := if hasSep then 5 else 4
  if full[pos]? = some 'W' then do
    let weekno ← parseDigitsAt full (pos + 1) 2
    let dayno ←
      if pos + 3 < sep then do
        let pos3 ←
          if hasSep then
            if full[pos + 3]? = some '-' then pure (pos + 4) else none
          else pure (pos + 3)
        parseDigitsAt full pos3 1
      else pure 1
    isoToGregorian year weekno dayno
  else do
    let mo ← parseDigitsAt full pos 2
    let pos2 ←
      if hasSep then
        if full[pos + 2]? = some '-' then pure (pos + 3) else none
      else pure (pos + 2)
    let da ← parseDigitsAt full pos2 2
    pure (year, mo, da)

/-- Fractional-second field from position `pos` to the end of `s`:
up to six digits (scaled to microseconds), further digits skipped; a
non-digit tail is an error unless a timezone sign follows the portion
(`lenient`), where the C parser drops it. -/
def fracTail (s : Str) (pos : Nat) (lenient : Bool) : Option Nat := do
  let L := s.length
  let tp := min 6 (L - pos)
  let f ← parseDigitsAt s pos tp
  let us := f * 10 ^ (6 - tp)
  let pos2 := pos + tp + ((s.drop (pos + tp)).takeWhile isDig).length
  if pos2 < L then
    (if lenient ∨ s[pos2]? = some '\x00' then pure us else none)
  else pure us

/-- The `HH[:?MM[:?SS]][{.,}fff]` loop of the C `parse_hh_mm_ss_ff`:
two-digit components with consistent `:` separation (or none), a
fraction after any component, and — when a timezone sign terminates the
portion (`lenient`) — a dangling final character silently dropped.  The
C parser reads the buffer terminator, so an embedded NUL character also
acts as an accepted terminator at these positions. -/
def hmsLoop : Nat → Str → Nat → Bool → Bool → List Nat → Option (Nat × Nat × Nat × Nat)
  | 0, s, pos, lenient, _hasSep, acc => do
    let us ← fracTail s pos lenient
    pure (acc.getD 0 0, acc.getD 1 0, acc.getD 2 0, us)
  | fuel + 1, s, pos, lenient, hasSep, acc => do
    let v ← parseDigitsAt s pos 2
    let acc' := acc ++ [v]
    let L := s.length
    if pos + 2 = L then pure (acc'.getD 0 0, acc'.getD 1 0, acc'.getD 2 0, 0)
    else do
      let c ← s[pos + 2]?
      let hasSep' := if acc = [] then c = ':' else hasSep
      if pos + 3 ≥ L then
        if lenient ∨ c = '\x00' then pure (acc'.getD 0 0, acc'.getD 1 0, acc'.getD 2 0, 0)
        else none
      else if c = ':' then
        if hasSep' then hmsLoop fuel s (pos + 3) lenient hasSep' acc' else none
      else if c = '.' ∨ c = ',' then do
        let us ← fracTail s (pos + 3) lenient
        pure (acc'.getD 0 0, acc'.getD 1 0, acc'.getD 2 0, us)
      else if hasSep' then none
      else hmsLoop fuel s (pos + 2) lenient hasSep' acc'

def parseHMSF (t : Str) (lenient : Bool) : Option (Nat × Nat × Nat × Nat) :=
  hmsLoop 3 t 0 lenient false []

/-- First `+`, `-` or `Z` in the time portion, with its index — the C
timezone scan. -/
def findTz : Str → Nat → Option (Nat × Char)
  | [], _ => none
  | c :: r, i => if c = '+' ∨ c = '-' ∨ c = 'Z' then some (i, c) else findTz r (i + 1)

/-- Time portion of `fromisoformat` (C `parse_isoformat_time`): time
fields, then `Z` (final only) or a signed `HH[:?MM[:?SS[{.,}ffffff]]]`
offset — fields unchecked individually, total strictly under 24 hours,
an all-zero `HH:MM:SS` meaning UTC (offset microseconds dropped). -/
def parseTimeC (t : Str) : Option (Nat × Nat × Nat × Option Int) :=
  if t.length < 2 then none
  else
    match findTz t 0 with
    | none => do
      let (h, m, s, _us) ← parseHMSF t false
      pure (h, m, s, none)
    | some (i, sc) => do
      let (h, m, s, _us) ← parseHMSF (t.take i) true
      if sc = 'Z' then
        if i + 1 < t.length ∧ t[i + 1]? ≠ some '\x00' then none
        else pure (h, m, s, some 0)
      else do
        let (th, tm, ts, tus) ← parseHMSF (t.drop (i + 1)) false
        if th = 0 ∧ tm = 0 ∧ ts = 0 then pure (h, m, s, some 0)
        else
          let sgn : Int := if sc = '-' then -1 else 1
          let total : Int := sgn * (((th * 3600 + tm * 60 + ts) * 1000000 + tus : Nat) : Int)
          if -86400000000 < total ∧ total < 86400000000 then pure (h, m, s, some total)
          else none

/-- Model of `datetime.fromisoformat` (Python 3.11 C implementation):
date (extended, basic, or ISO week form), any single separator
character, time with optional fraction and offset.  Field values are
range-checked as by the `datetime` constructor.  Returns `none` exactly
when the Python call raises. -/
def parseIso (s : Str) : Option PyDateTime := do
  if s.length < 7 then none
  else do
    let sep ← findSep s
    let (y, mo, da) ← parseDateC s sep
    let (h, mi, se, tz) ←
      if sep < s.length then parseTimeC (s.drop (sep + 1))
      else pure (0, 0, 0, none)
    if 1 ≤ y ∧ y ≤ 9999 ∧ 1 ≤ mo ∧ mo ≤ 12 ∧ 1 ≤ da ∧ da ≤ daysInMonth y mo ∧
        h ≤ 23 ∧ mi ≤ 59 ∧ se ≤ 59 then
      pure ⟨y, mo, da, h, mi, se, tz⟩
    else none

def weekNames : List Str :=
  ["Sun".toList, "Mon".toList, "Tue".toList, "Wed".toList,
   "Thu".toList, "Fri".toList, "Sat".toList]

def monthNames : List Str :=
  ["Jan".toList, "Feb".toList, "Mar".toList, "Apr".toList, "May".toList, "Jun".toList,
   "Jul".toList, "Aug".toList, "Sep".toList, "Oct".toList, "Nov".toList, "Dec".toList]

/-- Day of week of a Gregorian date (Sakamoto's method), 0 = Sunday,
matching `strftime('%a')`. -/
def dayOfWeek (y m d : Nat) : Nat :=
  let t := [0, 3, 2, 5, 0, 3, 5, 1, 4, 6, 2, 4]
  let y' := if m < 3 then y - 1 else y
  (y' + y' / 4 - y' / 100 + y' / 400 + t.getD (m - 1) 0 + d) % 7

/-- Six-digit zero-padded decimal (for `%z` fractional offsets). -/
def pad6 (n : Nat) : Str :=
  [digitChar (n / 100000), digitChar (n / 10000), digitChar (n / 1000),
   digitChar (n / 100), digitChar (n / 10), digitChar n]

/-- `strftime('%z')`: empty for a naive datetime, else `±HHMM`, with a
seconds field when the offset has one and `.ffffff` when it has
sub-second microseconds (offset stored in microseconds). -/
def fmtTz : Option Int → Str
  | none => []
  | some off =>
    (if off < 0 then '-' else '+') ::
      (pad2 (off.natAbs / 3600000000) ++ pad2 (off.natAbs / 60000000 % 60) ++
        (if off.natAbs % 1000000 ≠ 0 then
          pad2 (off.natAbs / 1000000 % 60) ++ '.' :: pad6 (off.natAbs % 1000000)
         else if off.natAbs / 1000000 % 60 ≠ 0 then
          pad2 (off.natAbs / 1000000 % 60)
         else []))

/-- `dt.strftime('%a, %d %b %Y %H:%M:%S %z')`. -/
def fmtDT (dt : PyDateTime) : Str :=
  weekNames.getD (dayOfWeek dt.year dt.month dt.day) [] ++ ", ".toList ++
  pad2 dt.day ++ [' '] ++ monthNames.getD (dt.month - 1) [] ++ [' '] ++
  natDigits dt.year ++ [' '] ++
  pad2 dt.hour ++ [':'] ++ pad2 dt.minute ++ [':'] ++ pad2 dt.second ++ [' '] ++
  fmtTz dt.tz

/-- `date.replace('Z', '+00:00')`. -/
def replaceZ (s : Str) : Str :=
  s.flatMap (fun c => if c = 'Z' then "+00:00".toList else [c])

/-- The date normalisation of `_extract_email_from_xml` (lines 161-168):
an ISO-looking value (contains `'T'`) is reparsed and reformatted; on
any parse failure the raw value is kept. -/
def formatDate (date : Str) : Str :=
  if date ≠ [] ∧ 'T' ∈ date then
    match parseIso (replaceZ date) with
    | some dt => fmtDT dt
    | none => date
  else date

/-- An element of the parsed XML document: tag, optional text, children
(`xml.etree.ElementTree` elements as far as the converter reads them). -/
inductive Xml where
  | mk (tag : Str) (text : Option Str) (children : List Xml)

def Xml.tag : Xml → Str | .mk t _ _ => t
def Xml.text : Xml → Option Str | .mk _ tx _ => tx
def Xml.children : Xml → List Xml | .mk _ _ cs => cs

mutual
/-- `root.iter()`: the element and all descendants in document
(preorder) order. -/
def iterElems : Xml → List Xml
  | .mk t tx cs => .mk t tx cs :: iterList cs

def iterList : List Xml → List Xml
  | [] => []
  | x :: xs => iterElems x ++ iterList xs
end

def tagSubject : Str := "OPFMessageCopySubject".toList
def tagDisplayTo : Str := "OPFMessageCopyDisplayTo".toList
def tagFromAddresses : Str := "OPFMessageCopyFromAddresses".toList
def tagSentTime : Str := "OPFMessageCopySentTime".toList
def tagBody : Str := "OPFMessageCopyBody".toList
def tagHTMLBody : Str := "OPFMessageCopyHTMLBody".toList
def tagMessageID : Str := "OPFMessageCopyMessageID".toList
def tagSenderAddress : Str := "OPFMessageCopySenderAddress".toList

/-- The six local variables of `_extract_email_from_xml`. -/
structure XFields where
  subject : Str
  sender : Str
  recipient : Str
  date : Str
  body : Str
  msgid : Str
deriving DecidableEq, Repr

def XFields.empty : XFields := ⟨[], [], [], [], [], []⟩

/-- One iteration of the `for elem in root.iter()` scan (the `elif`
chain of lines 127-145).  `elem.text or ""` maps a missing text to the
empty string; the body branches fire only on a truthy (non-empty)
text, and the HTML body only when no body was seen yet. -/
def scanStep (st : XFields) (e : Xml) : XFields :=
  if e.tag = tagSubject then ⟨e.text.getD [], st.sender, st.recipient, st.date, st.body, st.msgid⟩
  else if e.tag = tagDisplayTo then ⟨st.subject, st.sender, e.text.getD [], st.date, st.body, st.msgid⟩
  else if e.tag = tagFromAddresses then ⟨st.subject, e.text.getD [], st.recipient, st.date, st.body, st.msgid⟩
  else if e.tag = tagSentTime then ⟨st.subject, st.sender, st.recipient, e.text.getD [], st.body, st.msgid⟩
  else if e.tag = tagBody then
    match e.text with
    | some tx => if tx ≠ [] then ⟨st.subject, st.sender, st.recipient, st.date, unescape tx, st.msgid⟩ else st
    | none => st
  else if e.tag = tagHTMLBody then
    match e.text with
    | some tx => if tx ≠ [] ∧ st.body = [] then ⟨st.subject, st.sender, st.recipient, st.date, unescape tx, st.msgid⟩ else st
    | none => st
  else if e.tag = tagMessageID then ⟨st.subject, st.sender, st.recipient, st.date, st.body, e.text.getD []⟩
  else st

def scanFields (l : List Xml) : XFields := l.foldl scanStep XFields.empty

/-- The secondary sender scan (lines 148-152): first
`OPFMessageCopySenderAddress` element, used only when the primary
sender is empty. -/
def senderFallback (root : Xml) : Str :=
  match (iterElems root).find? (fun e => e.tag = tagSenderAddress) with
  | some e => e.text.getD []
  | none => []

/-- `_extract_email_from_xml` up to the field values: tag scan, sender
fallback, HTML body clean-up, date reformatting. -/
def xmlFields (root : Xml) : XFields :=
  let f0 := scanFields (iterElems root)
  let sender := if f0.sender = [] then senderFallback root else f0.sender
  ⟨f0.subject, sender, f0.recipient, formatDate f0.date, cleanBody f0.body, f0.msgid⟩

/-- The EML f-string of `_extract_email_from_xml` (lines 171-178). -/
def renderXmlEml (x : XFields) : Str :=
  ("From: ".toList ++ x.sender) ++ '\n' ::
  (("To: ".toList ++ x.recipient) ++ '\n' ::
  (("Subject: ".toList ++ x.subject) ++ '\n' ::
  (("Date: ".toList ++ x.date) ++ '\n' ::
  (("Message-ID: ".toList ++ x.msgid) ++ '\n' ::
  ('\n' :: (x.body ++ ['\n']))))))

def extractFromXml (root : Xml) : Str := renderXmlEml (xmlFields root)

/-- Case-insensitive prefix test (the regex literal under
`re.IGNORECASE`). -/
def ciStarts : Str → Str → Bool
  | [], _ => true
  | _ :: _, [] => false
  | a :: as, b :: bs => (a.toLower == b.toLower) && ciStarts as bs

/-- `([^\n\r]+)` at the head of `s`: fails on end of text or a newline,
otherwise captures the maximal newline-free run. -/
def capAt (s : Str) : Option Str :=
  match s with
  | [] => none
  | c :: _ => if nlChar c then none else some (s.takeWhile (fun x => !nlChar x))

/-- Backtracking of the greedy `\s*` before the capture: try consuming
`k` whitespace characters, largest first. -/
def backTry (s : Str) : Nat → Option Str
  | 0 => capAt s
  | k+1 =>
    match capAt (s.drop (k + 1)) with
    | some cap => some cap
    | none => backTry s k

/-- Match `\s*([^\n\r]+)` at the head of `s`. -/
def matchTail (s : Str) : Option Str := backTry s (s.takeWhile wsChar).length

/-- `re.search(tok + r'\s*([^\n\r]+)', text, re.IGNORECASE)`: leftmost
position where the whole pattern matches, returning the capture. -/
def searchTok (tok : Str) : Str → Option Str
  | [] => none
  | c :: rest =>
    if ciStarts tok (c :: rest) then
      match matchTail ((c :: rest).drop tok.length) with
      | some cap => some cap
      | none => searchTok tok rest
    else searchTok tok rest

/-- `text.find('\n\n')`, returning the text after the separator. -/
def afterBlank : Str → Option Str
  | [] => none
  | c :: r =>
    if c = '\n' ∧ r.head? = some '\n' then some r.tail
    else afterBlank r

/-- The five local values of `_extract_email_from_binary` (lines
184-204).  The byte decode with `errors='ignore'` is modelled as the
identity on the decoded text; `now` is the system clock oracle. -/
structure BinFields where
  subject : Str
  sender : Str
  recipient : Str
  date : Str
  body : Str
deriving DecidableEq, Repr

def binFields (now : PyDateTime) (content : Str) : BinFields :=
  let subject := (searchTok "Subject:".toList content).getD "No Subject".toList
  let sender := (searchTok "From:".toList content).getD "Unknown Sender".toList
  let recipient := (searchTok "To:".toList content).getD "Unknown Recipient".toList
  let date := (searchTok "Date:".toList content).getD (fmtDT now)
  let body :=
    match afterBlank content with
    | some rest => stripEnds rest
    | none => "Content could not be extracted".toList
  ⟨subject, sender, recipient, date, body⟩

/-- The EML f-string of `_extract_email_from_binary` (lines 207-213):
four headers only — no `Message-ID` line. -/
def renderBinEml (b : BinFields) : Str :=
  ("From: ".toList ++ b.sender) ++ '\n' ::
  (("To: ".toList ++ b.recipient) ++ '\n' ::
  (("Subject: ".toList ++ b.subject) ++ '\n' ::
  (("Date: ".toList ++ b.date) ++ '\n' ::
  ('\n' :: (b.body ++ ['\n'])))))

def extractFromBinary (now : PyDateTime) (content : Str) : Str :=
  renderBinEml (binFields now content)

/-- Outcome of `ET.fromstring` on one record's bytes (the XML parser is
an external collaborator): either a parsed tree, or a structural parse
error with the raw decoded text. -/
inductive RawRecord where
  | xmlOk (root : Xml)
  | notXml (text : Str)

/-- The two-tier dispatch of `_convert_message_to_eml` (lines 93-100):
structured extraction when XML parses, fallback otherwise. -/
def convertOne (now : PyDateTime) : RawRecord → Str
  | .xmlOk root => extractFromXml root
  | .notXml text => extractFromBinary now text

/-- A record located by the directory walk: its path, and its bytes
(`none` models a read failure — `open`/`read` raising). -/
structure LocatedRecord where
  path : Str
  content : Option RawRecord

/-- `f"message_{count:05d}.eml"`. -/
def emlName (count : Nat) : Str :=
  "message_".toList ++ padNum5 count ++ ".eml".toList

/-- The walk loop of `_process_messages` (lines 71-84) combined with
`_convert_message_to_eml` (lines 86-113): per record, an unreadable
file is caught inside `_convert_message_to_eml` and reported with its
path; a readable record is converted and written when the EML text is
truthy.  `_convert_message_to_eml` never raises, so `message_count` is
incremented after every record.  Returns (written files, reported
failure paths, final count). -/
def processAux (now : PyDateTime) (count : Nat) :
    List LocatedRecord → List (Str × Str) × List Str × Nat
  | [] => ([], [], count)
  | rec :: rest =>
    match rec.content with
    | none =>
      let (w, f, c) := processAux now (count + 1) rest
      (w, rec.path :: f, c)
    | some raw =>
      let eml := convertOne now raw
      let (w, f, c) := processAux now (count + 1) rest
      (if eml ≠ [] then (emlName count, eml) :: w else w, f, c)

def processMessages (now : PyDateTime) (records : List LocatedRecord) :
    List (Str × Str) × List Str × Nat :=
  processAux now 0 records

/-- `convert` (lines 27-50): the container stage.  The `zipfile`
collaborator's verdict is the oracle: `none` models a `BadZipFile`
(re-raised as `ValueError("Invalid OLM file: ...")`), `some records`
a successful extraction whose walk located `records`. -/
def convert (olmPath : Str) (now : PyDateTime)
    (archive : Option (List LocatedRecord)) :
    Except Str (List (Str × Str) × List Str × Nat) :=
  match archive with
  | none => .error ("Invalid OLM file: ".toList ++ olmPath)
  | some records => .ok (processMessages now records)

/-! Analysis helpers (pure observations on emitted text). -/

/-- The header block of an emitted message: the lines before the first
blank line. -/
def headerBlock (e : Str) : List Str := (splitNl e).takeWhile (fun l => l ≠ [])

/-- Re-parse one header of an emitted message: the remainder of the
first line starting with `name`. -/
def readHeaderLine (e : Str) (name : Str) : Option Str :=
  (splitNl e).findSome? (fun l => if name.isPrefixOf l then some (l.drop name.length) else none)

/-- Does the text contain a `<`…`>` tag group (non-empty `>`-free
interior), i.e. a substring the tag-removal pass would match? -/
def hasTagSeq : Str → Bool
  | [] => false
  | c :: r =>
    if c = '<' then
      let t := r.takeWhile (fun x => x ≠ '>')
      if t ≠ [] ∧ t.length < r.length then true else hasTagSeq r
    else hasTagSeq r

/-- Does the text contain a recognised HTML character reference? -/
def hasEntity : Str → Bool
  | [] => false
  | c :: r => if (entAt (c :: r)).isSome then true else hasEntity r

/-- Invariant of tag-stripped text: every `<` is immediately followed
by `>` or has no `>` anywhere after it. -/
def wellAngled : Str → Bool
  | [] => true
  | c :: r =>
    if c = '<' then
      if r.head? = some '>' then wellAngled r else !r.contains '>'
    else wellAngled r

/-- No two adjacent newlines (no `\n\n` separator). -/
def noDbl : Str → Bool
  | [] => true
  | c :: r => if c = '\n' ∧ r.head? = some '\n' then false else noDbl r

/-- The texts of all elements of a tree. -/
def textsOf (root : Xml) : List Str := (iterElems root).filterMap Xml.text

/-- The walk-order indices of the records that produce a written file
(starting from `k`). -/
def successIdx (k : Nat) : List LocatedRecord → List Nat
  | [] => []
  | rec :: rest =>
    match rec.content with
    | none => successIdx (k + 1) rest
    | some _ => k :: successIdx (k + 1) rest

/-- Numeric value of a digit string (to invert `natDigits`). -/
def digitsVal (l : Str) : Nat := l.foldl (fun a c => a * 10 + (c.toNat - 48)) 0

/-- A canonical valid structured record: one element per recognised
field tag (subject, display-to, from-addresses, sent-time, body,
message-id). -/
def recordXml (s f t d m b : Str) : Xml :=
  .mk "email".toList none
    [.mk tagSubject (some s) [],
     .mk tagDisplayTo (some t) [],
     .mk tagFromAddresses (some f) [],
     .mk tagSentTime (some d) [],
     .mk tagBody (some b) [],
     .mk tagMessageID (some m) []]

/-- An RFC-2822-like display string: it opens with a three-letter
day-of-week abbreviation followed by a comma and a space. -/
def rfcShape (e : Str) : Bool :=
  weekNames.any (fun w => (w ++ ", ".toList).isPrefixOf e)

/-- The per-record outcome of the walk, indexed by the walk-order
counter value: an unreadable record writes nothing; a readable one
writes the converted text under its sequence-numbered name (the
`if eml_content:` guard). -/
def writeFn (now : PyDateTime) (p : Nat × LocatedRecord) : Option (Str × Str) :=
  match p.2.content with
  | none => none
  | some raw => if convertOne now raw ≠ [] then some (emlName p.1, convertOne now raw) else none

/-! ### Basic lemmas about the text helpers -/

theorem splitNl_append (a r : Str) (h : ∀ c ∈ a, c ≠ '\n') :
    splitNl (a ++ '\n' :: r) = a :: splitNl r := by
  induction a with
  | nil => simp [splitNl]
  | cons c a' ih =>
    have hc : c ≠ '\n' := h c (by simp)
    have ih' := ih (fun x hx => h x (by simp [hx]))
    simp [splitNl, hc, ih']

theorem isPrefixOf_take (p q z : Str) (h : p.isPrefixOf (q ++ z) = true) :
    (p.take q.length).isPrefixOf q = true := by
  induction q generalizing p with
  | nil => simp
  | cons b bs ih =>
    cases p with
    | nil => simp
    | cons a as =>
      simp only [List.cons_append, List.isPrefixOf] at h
      have h1 := Bool.and_elim_left h
      have h2 := Bool.and_elim_right h
      simpa [List.isPrefixOf, h1] using ih as h2

theorem isPrefixOf_append_self (p z : Str) : p.isPrefixOf (p ++ z) = true := by
  induction p with
  | nil => simp
  | cons a as ih => simp [List.isPrefixOf, ih]

theorem digitChar_toNat (d : Nat) : (digitChar d).toNat = 48 + d % 10 := by
  have hk : d % 10 < 10 := Nat.mod_lt _ (by norm_num)
  unfold digitChar
  set k := d % 10 with hkdef
  interval_cases k <;> decide

theorem digitChar_ne_nl (d : Nat) : digitChar d ≠ '\n' := by
  have hk : d % 10 < 10 := Nat.mod_lt _ (by norm_num)
  unfold digitChar
  set k := d % 10 with hkdef
  interval_cases k <;> decide

theorem natDigitsAux_ne_nl (f n : Nat) : ∀ c ∈ natDigitsAux f n, c ≠ '\n' := by
  induction f generalizing n with
  | zero => simp [natDigitsAux]
  | succ f ih =>
    intro c hc
    by_cases h : n < 10
    · simp [natDigitsAux, h] at hc
      simpa [hc] using digitChar_ne_nl n
    · simp [natDigitsAux, h] at hc
      rcases hc with hc | hc
      · exact ih _ c hc
      · simpa [hc] using digitChar_ne_nl (n % 10)

theorem natDigits_ne_nl (n : Nat) : ∀ c ∈ natDigits n, c ≠ '\n' :=
  natDigitsAux_ne_nl (n + 1) n

theorem pad2_ne_nl (n : Nat) : ∀ c ∈ pad2 n, c ≠ '\n' := by
  intro c hc
  simp [pad2] at hc
  rcases hc with hc | hc <;> simp [hc, digitChar_ne_nl]

theorem getD_mem_or (l : List Str) (i : Nat) (d : Str) :
    l.getD i d = d ∨ l.getD i d ∈ l := by
  by_cases h : i < l.length
  · right
    rw [List.getD_eq_getElem l d h]
    exact List.getElem_mem h
  · left
    exact List.getD_eq_default l d (Nat.le_of_not_lt h)


theorem ne_nl_of_not_mem {l : Str} (h : ('\n' : Char) ∉ l) : ∀ c ∈ l, c ≠ '\n' :=
  fun _ hc e => h (e ▸ hc)

theorem nl_not_mem_getD (l : List Str) (i : Nat) (h : ∀ x ∈ l, ('\n' : Char) ∉ x) :
    ('\n' : Char) ∉ l.getD i [] := by
  rcases getD_mem_or l i [] with he | he
  · rw [he]; simp
  · exact h _ he

theorem nl_not_mem_pad2 (n : Nat) : ('\n' : Char) ∉ pad2 n := by
  intro h
  exact pad2_ne_nl n '\n' h rfl

theorem nl_not_mem_natDigits (n : Nat) : ('\n' : Char) ∉ natDigits n := by
  intro h
  exact natDigits_ne_nl n '\n' h rfl

theorem pad6_ne_nl (n : Nat) : ∀ c ∈ pad6 n, c ≠ '\n' := by
  intro c hc
  simp only [pad6, List.mem_cons, List.not_mem_nil, or_false] at hc
  rcases hc with h | h | h | h | h | h <;> (rw [h]; exact digitChar_ne_nl _)

theorem fmtTz_ne_nl (tz : Option Int) : ∀ c ∈ fmtTz tz, c ≠ '\n' := by
  cases tz with
  | none => simp [fmtTz]
  | some off =>
    intro c hc
    simp only [fmtTz, List.mem_cons, List.mem_append] at hc
    rcases hc with hc | (hc | hc) | hc
    · rw [hc]; split <;> decide
    · exact pad2_ne_nl _ c hc
    · exact pad2_ne_nl _ c hc
    · split at hc
      · simp only [List.mem_append, List.mem_cons] at hc
        rcases hc with hc | hc | hc
        · exact pad2_ne_nl _ c hc
        · rw [hc]; decide
        · exact pad6_ne_nl _ c hc
      · split at hc
        · exact pad2_ne_nl _ c hc
        · simp at hc

theorem fmtDT_ne_nl (dt : PyDateTime) : ∀ c ∈ fmtDT dt, c ≠ '\n' := by
  intro c hc
  unfold fmtDT at hc
  simp only [List.append_assoc, List.mem_append] at hc
  rcases hc with hc | hc | hc | hc | hc | hc | hc | hc | hc | hc | hc | hc | hc | hc | hc
  · exact ne_nl_of_not_mem (nl_not_mem_getD weekNames _ (by decide)) c hc
  · exact ne_nl_of_not_mem (by decide) c hc
  · exact pad2_ne_nl _ c hc
  · exact ne_nl_of_not_mem (by decide) c hc
  · exact ne_nl_of_not_mem (nl_not_mem_getD monthNames _ (by decide)) c hc
  · exact ne_nl_of_not_mem (by decide) c hc
  · exact natDigits_ne_nl _ c hc
  · exact ne_nl_of_not_mem (by decide) c hc
  · exact pad2_ne_nl _ c hc
  · exact ne_nl_of_not_mem (by decide) c hc
  · exact pad2_ne_nl _ c hc
  · exact ne_nl_of_not_mem (by decide) c hc
  · exact pad2_ne_nl _ c hc
  · exact ne_nl_of_not_mem (by decide) c hc
  · exact fmtTz_ne_nl _ c hc

theorem formatDate_ne_nl (d : Str) (h : ∀ c ∈ d, c ≠ '\n') :
    ∀ c ∈ formatDate d, c ≠ '\n' := by
  unfold formatDate
  split
  · cases hp : parseIso (replaceZ d) with
    | some dt => simpa [hp] using fmtDT_ne_nl dt
    | none => simpa [hp] using h
  · exact h

/-! ### Line structure of the emitted EML texts -/

theorem append_ne_nil_left {a b : Str} (h : a ≠ []) : a ++ b ≠ [] := by
  cases a with
  | nil => exact absurd rfl h
  | cons x xs => simp

theorem forall_ne_nl_append {a b : Str} (ha : ∀ c ∈ a, c ≠ '\n') (hb : ∀ c ∈ b, c ≠ '\n') :
    ∀ c ∈ a ++ b, c ≠ '\n' := by
  intro c hc
  rcases List.mem_append.mp hc with h | h
  · exact ha c h
  · exact hb c h

theorem headerBlock_renderXmlEml (x : XFields)
    (h1 : ∀ c ∈ x.sender, c ≠ '\n') (h2 : ∀ c ∈ x.recipient, c ≠ '\n')
    (h3 : ∀ c ∈ x.subject, c ≠ '\n') (h4 : ∀ c ∈ x.date, c ≠ '\n')
    (h5 : ∀ c ∈ x.msgid, c ≠ '\n') :
    headerBlock (renderXmlEml x) =
      ["From: ".toList ++ x.sender, "To: ".toList ++ x.recipient,
       "Subject: ".toList ++ x.subject, "Date: ".toList ++ x.date,
       "Message-ID: ".toList ++ x.msgid] := by
  unfold renderXmlEml headerBlock
  rw [splitNl_append _ _ (forall_ne_nl_append (ne_nl_of_not_mem (by decide)) h1),
      splitNl_append _ _ (forall_ne_nl_append (ne_nl_of_not_mem (by decide)) h2),
      splitNl_append _ _ (forall_ne_nl_append (ne_nl_of_not_mem (by decide)) h3),
      splitNl_append _ _ (forall_ne_nl_append (ne_nl_of_not_mem (by decide)) h4),
      splitNl_append _ _ (forall_ne_nl_append (ne_nl_of_not_mem (by decide)) h5)]
  rw [show splitNl ('\n' :: (x.body ++ ['\n'])) = [] :: splitNl (x.body ++ ['\n']) by
    simp [splitNl]]
  rw [List.takeWhile_cons_of_pos (by simp [append_ne_nil_left]),
      List.takeWhile_cons_of_pos (by simp [append_ne_nil_left]),
      List.takeWhile_cons_of_pos (by simp [append_ne_nil_left]),
      List.takeWhile_cons_of_pos (by simp [append_ne_nil_left]),
      List.takeWhile_cons_of_pos (by simp [append_ne_nil_left]),
      List.takeWhile_cons_of_neg (by simp)]

theorem headerBlock_renderBinEml (b : BinFields)
    (h1 : ∀ c ∈ b.sender, c ≠ '\n') (h2 : ∀ c ∈ b.recipient, c ≠ '\n')
    (h3 : ∀ c ∈ b.subject, c ≠ '\n') (h4 : ∀ c ∈ b.date, c ≠ '\n') :
    headerBlock (renderBinEml b) =
      ["From: ".toList ++ b.sender, "To: ".toList ++ b.recipient,
       "Subject: ".toList ++ b.subject, "Date: ".toList ++ b.date] := by
  unfold renderBinEml headerBlock
  rw [splitNl_append _ _ (forall_ne_nl_append (ne_nl_of_not_mem (by decide)) h1),
      splitNl_append _ _ (forall_ne_nl_append (ne_nl_of_not_mem (by decide)) h2),
      splitNl_append _ _ (forall_ne_nl_append (ne_nl_of_not_mem (by decide)) h3),
      splitNl_append _ _ (forall_ne_nl_append (ne_nl_of_not_mem (by decide)) h4)]
  rw [show splitNl ('\n' :: (b.body ++ ['\n'])) = [] :: splitNl (b.body ++ ['\n']) by
    simp [splitNl]]
  rw [List.takeWhile_cons_of_pos (by simp [append_ne_nil_left]),
      List.takeWhile_cons_of_pos (by simp [append_ne_nil_left]),
      List.takeWhile_cons_of_pos (by simp [append_ne_nil_left]),
      List.takeWhile_cons_of_pos (by simp [append_ne_nil_left]),
      List.takeWhile_cons_of_neg (by simp)]

/-! ### Provenance of the structured-scan fields -/

/-- A field value after a scan either was the starting value, is empty,
or is the text of some element of the scanned list. -/
def fieldSrc (v s0 : Str) (l : List Xml) : Prop :=
  v = s0 ∨ v = [] ∨ ∃ e ∈ l, e.text = some v

theorem scanStep_fields (st : XFields) (e : Xml) :
    ((scanStep st e).subject = st.subject ∨ (scanStep st e).subject = [] ∨ e.text = some (scanStep st e).subject) ∧
    ((scanStep st e).sender = st.sender ∨ (scanStep st e).sender = [] ∨ e.text = some (scanStep st e).sender) ∧
    ((scanStep st e).recipient = st.recipient ∨ (scanStep st e).recipient = [] ∨ e.text = some (scanStep st e).recipient) ∧
    ((scanStep st e).date = st.date ∨ (scanStep st e).date = [] ∨ e.text = some (scanStep st e).date) ∧
    ((scanStep st e).msgid = st.msgid ∨ (scanStep st e).msgid = [] ∨ e.text = some (scanStep st e).msgid) := by
  rcases e with ⟨tg, tx, cs⟩
  cases tx with
  | none =>
    simp only [scanStep, Xml.tag, Xml.text]
    split_ifs <;> simp_all
  | some t =>
    simp only [scanStep, Xml.tag, Xml.text]
    split_ifs <;> simp_all

theorem fieldSrc_trans {v m s0 : Str} {e : Xml} {l' : List Xml}
    (h1 : fieldSrc v m l') (h2 : m = s0 ∨ m = [] ∨ e.text = some m) :
    fieldSrc v s0 (e :: l') := by
  rcases h1 with rfl | rfl | ⟨e', he', ht⟩
  · rcases h2 with rfl | rfl | h
    · exact Or.inl rfl
    · exact Or.inr (Or.inl rfl)
    · exact Or.inr (Or.inr ⟨e, by simp, h⟩)
  · exact Or.inr (Or.inl rfl)
  · exact Or.inr (Or.inr ⟨e', by simp [he'], ht⟩)

theorem foldl_scanStep_src (l : List Xml) : ∀ st : XFields,
    fieldSrc (l.foldl scanStep st).subject st.subject l ∧
    fieldSrc (l.foldl scanStep st).sender st.sender l ∧
    fieldSrc (l.foldl scanStep st).recipient st.recipient l ∧
    fieldSrc (l.foldl scanStep st).date st.date l ∧
    fieldSrc (l.foldl scanStep st).msgid st.msgid l := by
  induction l with
  | nil => intro st; simp [fieldSrc]
  | cons e l' ih =>
    intro st
    have hstep := scanStep_fields st e
    have hih := ih (scanStep st e)
    simp only [List.foldl_cons]
    exact ⟨fieldSrc_trans hih.1 hstep.1,
           fieldSrc_trans hih.2.1 hstep.2.1,
           fieldSrc_trans hih.2.2.1 hstep.2.2.1,
           fieldSrc_trans hih.2.2.2.1 hstep.2.2.2.1,
           fieldSrc_trans hih.2.2.2.2 hstep.2.2.2.2⟩

theorem fieldSrc_ne_nl {v : Str} {l : List Xml}
    (h : fieldSrc v [] l)
    (htx : ∀ tx ∈ l.filterMap Xml.text, ∀ c ∈ tx, c ≠ '\n') :
    ∀ c ∈ v, c ≠ '\n' := by
  rcases h with rfl | rfl | ⟨e, he, ht⟩
  · simp
  · simp
  · exact htx v (List.mem_filterMap.mpr ⟨e, he, ht⟩)

theorem senderFallback_src (root : Xml) :
    senderFallback root = [] ∨ senderFallback root ∈ textsOf root := by
  unfold senderFallback
  cases hf : (iterElems root).find? (fun e => e.tag = tagSenderAddress) with
  | none => simp
  | some e =>
    cases ht : e.text with
    | none => simp [ht]
    | some tx =>
      right
      simp only [ht, Option.getD_some]
      exact List.mem_filterMap.mpr ⟨e, List.mem_of_find?_eq_some hf, ht⟩

theorem xmlFields_ne_nl (root : Xml)
    (h : ∀ tx ∈ textsOf root, ∀ c ∈ tx, c ≠ '\n') :
    (∀ c ∈ (xmlFields root).subject, c ≠ '\n') ∧
    (∀ c ∈ (xmlFields root).sender, c ≠ '\n') ∧
    (∀ c ∈ (xmlFields root).recipient, c ≠ '\n') ∧
    (∀ c ∈ (xmlFields root).date, c ≠ '\n') ∧
    (∀ c ∈ (xmlFields root).msgid, c ≠ '\n') := by
  have hsrc := foldl_scanStep_src (iterElems root) XFields.empty
  have htx : ∀ tx ∈ (iterElems root).filterMap Xml.text, ∀ c ∈ tx, c ≠ '\n' := h
  refine ⟨?_, ?_, ?_, ?_, ?_⟩
  · exact fieldSrc_ne_nl hsrc.1 htx
  · show ∀ c ∈ (if (scanFields (iterElems root)).sender = []
        then senderFallback root else (scanFields (iterElems root)).sender), c ≠ '\n'
    split
    · rcases senderFallback_src root with he | he
      · simp [he]
      · exact h _ he
    · exact fieldSrc_ne_nl hsrc.2.1 htx
  · exact fieldSrc_ne_nl hsrc.2.2.1 htx
  · exact formatDate_ne_nl _ (fieldSrc_ne_nl hsrc.2.2.2.1 htx)
  · exact fieldSrc_ne_nl hsrc.2.2.2.2 htx

/-! ### Records without recognised tags -/

/-- All tags the structured extraction recognises. -/
def recTags : List Str :=
  [tagSubject, tagDisplayTo, tagFromAddresses, tagSentTime,
   tagBody, tagHTMLBody, tagMessageID, tagSenderAddress]

theorem scanStep_skip (st : XFields) (e : Xml) (h : e.tag ∉ recTags) :
    scanStep st e = st := by
  have h1 : e.tag ≠ tagSubject := fun he => h (by simp [recTags, he])
  have h2 : e.tag ≠ tagDisplayTo := fun he => h (by simp [recTags, he])
  have h3 : e.tag ≠ tagFromAddresses := fun he => h (by simp [recTags, he])
  have h4 : e.tag ≠ tagSentTime := fun he => h (by simp [recTags, he])
  have h5 : e.tag ≠ tagBody := fun he => h (by simp [recTags, he])
  have h6 : e.tag ≠ tagHTMLBody := fun he => h (by simp [recTags, he])
  have h7 : e.tag ≠ tagMessageID := fun he => h (by simp [recTags, he])
  simp [scanStep, h1, h2, h3, h4, h5, h6, h7]

theorem foldl_scanStep_skip (l : List Xml) (h : ∀ e ∈ l, e.tag ∉ recTags) :
    ∀ st : XFields, l.foldl scanStep st = st := by
  induction l with
  | nil => intro st; rfl
  | cons e l' ih =>
    intro st
    rw [List.foldl_cons, scanStep_skip st e (h e (by simp))]
    exact ih (fun e' he' => h e' (by simp [he'])) st

theorem senderFallback_skip (root : Xml) (h : ∀ e ∈ iterElems root, e.tag ∉ recTags) :
    senderFallback root = [] := by
  unfold senderFallback
  have : (iterElems root).find? (fun e => e.tag = tagSenderAddress) = none := by
    rw [List.find?_eq_none]
    intro e he
    simp only [decide_eq_true_eq]
    intro heq
    exact h e he (by simp [recTags, heq])
  simp [this]

theorem xmlFields_skip (root : Xml) (h : ∀ e ∈ iterElems root, e.tag ∉ recTags) :
    xmlFields root = XFields.empty := by
  unfold xmlFields scanFields
  rw [foldl_scanStep_skip (iterElems root) h XFields.empty]
  simp [XFields.empty, senderFallback_skip root h, formatDate, cleanBody]

/-! ### Captures of the fallback header search are newline-free -/

theorem capAt_nl_free {s cap : Str} (h : capAt s = some cap) :
    ∀ c ∈ cap, nlChar c = false := by
  cases s with
  | nil => simp [capAt] at h
  | cons c r =>
    simp only [capAt] at h
    by_cases hn : nlChar c = true
    · rw [if_pos hn] at h
      exact absurd h (by simp)
    · rw [if_neg hn] at h
      injection h with h
      subst h
      intro x hx
      simpa using List.mem_takeWhile_imp hx

theorem backTry_nl_free {s cap : Str} (k : Nat) (h : backTry s k = some cap) :
    ∀ c ∈ cap, nlChar c = false := by
  induction k with
  | zero => exact capAt_nl_free h
  | succ k ih =>
    unfold backTry at h
    cases hc : capAt (s.drop (k + 1)) with
    | some cap' =>
      rw [hc] at h
      cases h
      exact capAt_nl_free hc
    | none =>
      rw [hc] at h
      exact ih h

theorem searchTok_nl_free {tok s cap : Str} (h : searchTok tok s = some cap) :
    ∀ c ∈ cap, nlChar c = false := by
  induction s with
  | nil => simp [searchTok] at h
  | cons c rest ih =>
    unfold searchTok at h
    by_cases hs : ciStarts tok (c :: rest) = true
    · rw [if_pos hs] at h
      cases hm : matchTail ((c :: rest).drop tok.length) with
      | some cap' =>
        rw [hm] at h
        cases h
        exact backTry_nl_free _ hm
      | none =>
        rw [hm] at h
        exact ih h
    · rw [if_neg hs] at h
      exact ih h

theorem nlChar_false_ne_nl {c : Char} (h : nlChar c = false) : c ≠ '\n' := by
  intro he
  subst he
  simp [nlChar] at h

theorem binFields_ne_nl (now : PyDateTime) (content : Str) :
    (∀ c ∈ (binFields now content).subject, c ≠ '\n') ∧
    (∀ c ∈ (binFields now content).sender, c ≠ '\n') ∧
    (∀ c ∈ (binFields now content).recipient, c ≠ '\n') ∧
    (∀ c ∈ (binFields now content).date, c ≠ '\n') := by
  unfold binFields
  refine ⟨?_, ?_, ?_, ?_⟩
  · cases hs : searchTok "Subject:".toList content with
    | some cap =>
      simp only [hs, Option.getD_some]
      exact fun c hc => nlChar_false_ne_nl (searchTok_nl_free hs c hc)
    | none => simp only [hs, Option.getD_none]; exact ne_nl_of_not_mem (by decide)
  · cases hs : searchTok "From:".toList content with
    | some cap =>
      simp only [hs, Option.getD_some]
      exact fun c hc => nlChar_false_ne_nl (searchTok_nl_free hs c hc)
    | none => simp only [hs, Option.getD_none]; exact ne_nl_of_not_mem (by decide)
  · cases hs : searchTok "To:".toList content with
    | some cap =>
      simp only [hs, Option.getD_some]
      exact fun c hc => nlChar_false_ne_nl (searchTok_nl_free hs c hc)
    | none => simp only [hs, Option.getD_none]; exact ne_nl_of_not_mem (by decide)
  · cases hs : searchTok "Date:".toList content with
    | some cap =>
      simp only [hs, Option.getD_some]
      exact fun c hc => nlChar_false_ne_nl (searchTok_nl_free hs c hc)
    | none => simp only [hs, Option.getD_none]; exact fmtDT_ne_nl now

/-! ### Locating the leftmost header-pattern match -/

theorem ciStarts_take {tok y r : Str} (h : ciStarts tok (y ++ r) = true) :
    ciStarts (tok.take y.length) y = true := by
  induction y generalizing tok with
  | nil => simp [ciStarts]
  | cons b bs ih =>
    cases tok with
    | nil => simp [ciStarts]
    | cons a as =>
      simp only [List.cons_append, ciStarts, Bool.and_eq_true] at h
      simp only [List.length_cons, List.take_succ_cons, ciStarts, Bool.and_eq_true]
      exact ⟨h.1, ih h.2⟩

/-- Decidable certificate that no nonempty suffix of the literal `L`
can begin a case-insensitive match of `tok`. -/
def litOK (tok L : Str) : Bool :=
  L.tails.all (fun y => y.isEmpty || !(ciStarts (tok.take y.length) y))

theorem litSkip {tok L : Str} (hok : litOK tok L = true) :
    ∀ y, y <:+ L → y ≠ [] → ∀ r, ciStarts tok (y ++ r) = false := by
  intro y hy hne r
  have hall := List.all_eq_true.mp hok y ((List.mem_tails y L).mpr hy)
  have hne' : y.isEmpty = false := by
    cases y
    · exact absurd rfl hne
    · rfl
  rw [hne', Bool.false_or] at hall
  cases hcs : ciStarts tok (y ++ r) with
  | false => rfl
  | true =>
    rw [ciStarts_take hcs] at hall
    simp at hall

theorem ciStarts_value : ∀ tok : Str, ':' ∈ tok → (∀ c ∈ tok, c.toLower ≠ '\n') →
    ∀ y : Str, (∀ c ∈ y, c.toLower ≠ ':') → ∀ r, ciStarts tok (y ++ '\n' :: r) = false := by
  intro tok
  induction tok with
  | nil => intro h; simp at h
  | cons a as ih =>
    intro htokc htokn y hy r
    cases y with
    | nil =>
      have han : a.toLower ≠ '\n' := htokn a (by simp)
      have h2 : ('\n' : Char).toLower = '\n' := by decide
      have hb : (a.toLower == ('\n' : Char).toLower) = false := by
        rw [h2]; exact beq_eq_false_iff_ne.mpr han
      simp only [List.nil_append, ciStarts, hb, Bool.false_and]
    | cons b bs =>
      simp only [List.cons_append, ciStarts]
      rcases List.mem_cons.mp htokc with hax | hmem
      · have hbc : b.toLower ≠ ':' := hy b (by simp)
        have hb : (a.toLower == b.toLower) = false := by
          rw [← hax]
          have h1 : (':' : Char).toLower = ':' := by decide
          rw [h1]
          exact beq_eq_false_iff_ne.mpr (fun he => hbc he.symm)
        simp [hb]
      · cases hab : (a.toLower == b.toLower)
        · simp
        · simp only [Bool.true_and]
          exact ih hmem (fun c hc => htokn c (by simp [hc])) bs
            (fun c hc => hy c (by simp [hc])) r

theorem searchTok_cons_neg {tok : Str} {c : Char} {rest : Str}
    (h : ciStarts tok (c :: rest) = false) :
    searchTok tok (c :: rest) = searchTok tok rest := by
  conv_lhs => unfold searchTok
  rw [if_neg (by simp [h])]

theorem searchTok_skip {tok : Str} : ∀ P rest : Str,
    (∀ y, y <:+ P → y ≠ [] → ciStarts tok (y ++ rest) = false) →
    searchTok tok (P ++ rest) = searchTok tok rest := by
  intro P
  induction P with
  | nil => intro rest _; rfl
  | cons c P' ih =>
    intro rest h
    have hc : ciStarts tok ((c :: P') ++ rest) = false :=
      h (c :: P') List.suffix_rfl (by simp)
    simp only [List.cons_append] at hc
    show searchTok tok (c :: (P' ++ rest)) = searchTok tok rest
    rw [searchTok_cons_neg hc]
    exact ih rest (fun y hy hne => h y (hy.trans (List.suffix_cons c P')) hne)

theorem skipParts {tok A B rest : Str}
    (hA : ∀ y, y <:+ A → y ≠ [] → ciStarts tok (y ++ (B ++ rest)) = false)
    (hB : ∀ y, y <:+ B → y ≠ [] → ciStarts tok (y ++ rest) = false) :
    ∀ y, y <:+ (A ++ B) → y ≠ [] → ciStarts tok (y ++ rest) = false := by
  induction A with
  | nil =>
    intro y hy hne
    exact hB y (by simpa using hy) hne
  | cons a A' ih =>
    intro y hy hne
    rcases List.suffix_cons_iff.mp (by simpa using hy) with rfl | hy'
    · have := hA (a :: A') List.suffix_rfl (by simp)
      simpa [List.append_assoc] using this
    · exact ih (fun y' hs hne' => hA y' (hs.trans (List.suffix_cons a A')) hne') y hy' hne

theorem ciStarts_extend {tok : Str} : ∀ {L : Str}, ciStarts tok L = true →
    ∀ z, ciStarts tok (L ++ z) = true := by
  induction tok with
  | nil => intro L _ z; simp [ciStarts]
  | cons a as ih =>
    intro L h z
    cases L with
    | nil => simp [ciStarts] at h
    | cons b bs =>
      simp only [ciStarts, Bool.and_eq_true] at h
      simp only [List.cons_append, ciStarts, Bool.and_eq_true]
      exact ⟨h.1, ih h.2 z⟩

theorem takeWhile_append_stop {p : Char → Bool} {v : Str} {c : Char} {z : Str}
    (hv : ∀ x ∈ v, p x = true) (hc : p c = false) :
    (v ++ c :: z).takeWhile p = v := by
  induction v with
  | nil => simp [List.takeWhile_cons, hc]
  | cons a v' ih =>
    rw [List.cons_append, List.takeWhile_cons_of_pos (hv a (by simp))]
    rw [ih (fun x hx => hv x (by simp [hx]))]

theorem ws_of_nl {c : Char} (h : nlChar c = true) : wsChar c = true := by
  simp only [nlChar, Bool.or_eq_true, beq_iff_eq] at h
  rcases h with rfl | rfl <;> decide

theorem matchTail_exact {v rest : Str} (hv0 : v ≠ [])
    (hhead : ∀ h, v.head? = some h → wsChar h = false)
    (hnl : ∀ c ∈ v, nlChar c = false) :
    matchTail (' ' :: (v ++ '\n' :: rest)) = some v := by
  obtain ⟨vh, vt, rfl⟩ : ∃ vh vt, v = vh :: vt := by
    cases v
    · exact absurd rfl hv0
    · exact ⟨_, _, rfl⟩
  have hws : wsChar vh = false := hhead vh rfl
  have h1 : (' ' :: ((vh :: vt) ++ '\n' :: rest)).takeWhile wsChar = [' '] := by
    rw [List.takeWhile_cons_of_pos (by decide)]
    simp [List.takeWhile_cons_of_neg, hws]
  have hnlvh : nlChar vh = false := by
    cases h : nlChar vh
    · rfl
    · rw [ws_of_nl h] at hws; exact absurd hws (by simp)
  unfold matchTail
  rw [h1]
  show backTry _ 1 = _
  unfold backTry
  have hdrop : (' ' :: ((vh :: vt) ++ '\n' :: rest)).drop 1 = (vh :: vt) ++ '\n' :: rest := rfl
  rw [hdrop]
  have hcap : capAt ((vh :: vt) ++ '\n' :: rest) = some (vh :: vt) := by
    simp only [List.cons_append, capAt, hnlvh, Bool.false_eq_true, if_false]
    rw [show vh :: (vt ++ '\n' :: rest) = (vh :: vt) ++ '\n' :: rest from rfl]
    rw [takeWhile_append_stop (fun x hx => by simp [hnl x hx]) (by decide)]
  rw [hcap]

theorem searchTok_head {tok : Str} {c : Char} {s cap : Str}
    (h1 : ciStarts tok (c :: s) = true)
    (h2 : matchTail ((c :: s).drop tok.length) = some cap) :
    searchTok tok (c :: s) = some cap := by
  unfold searchTok
  rw [if_pos h1, h2]

theorem skipBlock {tok : Str} (lit v next : Str)
    (h1 : litOK tok lit = true) (h2 : litOK tok ['\n'] = true)
    (h3 : ':' ∈ tok) (h4 : ∀ c ∈ tok, c.toLower ≠ '\n')
    (h5 : ∀ c ∈ v, c.toLower ≠ ':') :
    searchTok tok (lit ++ (v ++ '\n' :: next)) = searchTok tok next := by
  rw [searchTok_skip lit (v ++ '\n' :: next) (fun y hy hne => litSkip h1 y hy hne _)]
  rw [searchTok_skip v ('\n' :: next)
    (fun y hy hne => ciStarts_value tok h3 h4 y (fun c hc => h5 c (hy.subset hc)) next)]
  have hsing := @searchTok_skip tok ['\n'] next (fun y hy hne => by
    have hy' : y = ['\n'] := by
      rcases List.suffix_cons_iff.mp hy with rfl | hy2
      · rfl
      · simp at hy2
        exact absurd hy2 hne
    rw [hy']
    exact litSkip h2 ['\n'] List.suffix_rfl (by simp) next)
  simpa using hsing

theorem matchBlock {tok : Str} (lit v rest : Str)
    (h1 : ciStarts tok lit = true)
    (h2 : lit.drop tok.length = [' '])
    (hv0 : v ≠ []) (hh : ∀ h, v.head? = some h → wsChar h = false)
    (hnl : ∀ c ∈ v, nlChar c = false) :
    searchTok tok (lit ++ (v ++ '\n' :: rest)) = some v := by
  obtain ⟨lc, ls, rfl⟩ : ∃ lc ls, lit = lc :: ls := by
    cases lit
    · simp at h2
    · exact ⟨_, _, rfl⟩
  have hle : tok.length ≤ (lc :: ls).length := by
    by_contra hlt
    rw [List.drop_eq_nil_of_le (Nat.le_of_not_le hlt)] at h2
    simp at h2
  show searchTok tok (lc :: (ls ++ (v ++ '\n' :: rest))) = some v
  apply searchTok_head
  · have := ciStarts_extend h1 (v ++ '\n' :: rest)
    simpa using this
  · have hdrop : ((lc :: ls) ++ (v ++ '\n' :: rest)).drop tok.length
        = ' ' :: (v ++ '\n' :: rest) := by
      rw [List.drop_append_of_le_length hle, h2]
      rfl
    simp only [List.cons_append] at hdrop
    rw [hdrop]
    exact matchTail_exact hv0 hh hnl

/-! ### Locating the first blank-line separator -/

theorem afterBlank_append (v rest : Str) (h : ∀ c ∈ v, c ≠ '\n') :
    afterBlank (v ++ rest) = afterBlank rest := by
  induction v with
  | nil => rfl
  | cons c v' ih =>
    have hc : c ≠ '\n' := h c (by simp)
    simp only [List.cons_append, afterBlank]
    rw [if_neg (by simp [hc])]
    exact ih (fun x hx => h x (by simp [hx]))

theorem afterBlank_nl_cons (lit rest : Str) (hne : lit ≠ [])
    (hh : ∀ h, lit.head? = some h → h ≠ '\n') :
    afterBlank ('\n' :: (lit ++ rest)) = afterBlank (lit ++ rest) := by
  obtain ⟨c, lt, rfl⟩ : ∃ c lt, lit = c :: lt := by
    cases lit
    · exact absurd rfl hne
    · exact ⟨_, _, rfl⟩
  have hc : c ≠ '\n' := hh c rfl
  simp only [List.cons_append, afterBlank]
  rw [if_neg (by simp [hc])]

theorem afterBlank_found (b : Str) : afterBlank ('\n' :: '\n' :: b) = some b := by
  simp [afterBlank]

/-! ### Claim C3 -/

/-- C3 counterexample: the claim says the fallback body is exactly
everything after the first blank-line separator; on the record below
that remainder is `"hi\n"`, but the code applies `str.strip()` and
recovers `"hi"`.  (Header values are recovered as claimed.) -/
theorem claim_C3_counterexample :
    (binFields ⟨2026, 10, 12, 0, 0, 0, none⟩
        "Subject: s\nFrom: f\nTo: t\nDate: d\n\nhi\n".toList).body ≠ "hi\n".toList ∧
    (binFields ⟨2026, 10, 12, 0, 0, 0, none⟩
        "Subject: s\nFrom: f\nTo: t\nDate: d\n\nhi\n".toList).body = "hi".toList := by
  constructor
  · decide
  · decide

/-- C3 (amended): for a malformed-XML record whose decoded text is
plain `Subject:`/`From:`/`To:`/`Date:` header lines followed by a
blank line and body text — with each header value nonempty,
newline-free, not beginning with whitespace, and (for the
subject/from/to values, which precede later header lines) containing
no colon — the fallback path recovers exactly those four header
values, and recovers the body as everything after the first blank-line
separator *stripped of leading and trailing whitespace* (`str.strip`),
rather than the raw remainder. -/
theorem claim_C3_amended (now : PyDateTime) (s f t d b : Str)
    (hs0 : s ≠ []) (hs1 : ∀ c ∈ s, nlChar c = false)
    (hs2 : ∀ h, s.head? = some h → wsChar h = false) (hs3 : ∀ c ∈ s, c.toLower ≠ ':')
    (hf0 : f ≠ []) (hf1 : ∀ c ∈ f, nlChar c = false)
    (hf2 : ∀ h, f.head? = some h → wsChar h = false) (hf3 : ∀ c ∈ f, c.toLower ≠ ':')
    (ht0 : t ≠ []) (ht1 : ∀ c ∈ t, nlChar c = false)
    (ht2 : ∀ h, t.head? = some h → wsChar h = false) (ht3 : ∀ c ∈ t, c.toLower ≠ ':')
    (hd0 : d ≠ []) (hd1 : ∀ c ∈ d, nlChar c = false)
    (hd2 : ∀ h, d.head? = some h → wsChar h = false) :
    binFields now
      ("Subject: ".toList ++ (s ++ '\n' ::
        ("From: ".toList ++ (f ++ '\n' ::
          ("To: ".toList ++ (t ++ '\n' ::
            ("Date: ".toList ++ (d ++ '\n' :: '\n' :: b)))))))) =
    ⟨s, f, t, d, stripEnds b⟩ := by
  have hsub : searchTok "Subject:".toList
      ("Subject: ".toList ++ (s ++ '\n' ::
        ("From: ".toList ++ (f ++ '\n' ::
          ("To: ".toList ++ (t ++ '\n' ::
            ("Date: ".toList ++ (d ++ '\n' :: '\n' :: b)))))))) = some s :=
    matchBlock _ _ _ (by decide) (by decide) hs0 hs2 hs1
  have hfrom : searchTok "From:".toList
      ("Subject: ".toList ++ (s ++ '\n' ::
        ("From: ".toList ++ (f ++ '\n' ::
          ("To: ".toList ++ (t ++ '\n' ::
            ("Date: ".toList ++ (d ++ '\n' :: '\n' :: b)))))))) = some f := by
    rw [skipBlock _ _ _ (by decide) (by decide) (by decide) (by decide) hs3]
    exact matchBlock _ _ _ (by decide) (by decide) hf0 hf2 hf1
  have hto : searchTok "To:".toList
      ("Subject: ".toList ++ (s ++ '\n' ::
        ("From: ".toList ++ (f ++ '\n' ::
          ("To: ".toList ++ (t ++ '\n' ::
            ("Date: ".toList ++ (d ++ '\n' :: '\n' :: b)))))))) = some t := by
    rw [skipBlock _ _ _ (by decide) (by decide) (by decide) (by decide) hs3]
    rw [skipBlock _ _ _ (by decide) (by decide) (by decide) (by decide) hf3]
    exact matchBlock _ _ _ (by decide) (by decide) ht0 ht2 ht1
  have hdate : searchTok "Date:".toList
      ("Subject: ".toList ++ (s ++ '\n' ::
        ("From: ".toList ++ (f ++ '\n' ::
          ("To: ".toList ++ (t ++ '\n' ::
            ("Date: ".toList ++ (d ++ '\n' :: '\n' :: b)))))))) = some d := by
    rw [skipBlock _ _ _ (by decide) (by decide) (by decide) (by decide) hs3]
    rw [skipBlock _ _ _ (by decide) (by decide) (by decide) (by decide) hf3]
    rw [skipBlock _ _ _ (by decide) (by decide) (by decide) (by decide) ht3]
    exact matchBlock _ _ _ (by decide) (by decide) hd0 hd2 hd1
  have hblank : afterBlank
      ("Subject: ".toList ++ (s ++ '\n' ::
        ("From: ".toList ++ (f ++ '\n' ::
          ("To: ".toList ++ (t ++ '\n' ::
            ("Date: ".toList ++ (d ++ '\n' :: '\n' :: b)))))))) = some b := by
    rw [afterBlank_append _ _ (by decide)]
    rw [afterBlank_append _ _ (fun c hc => nlChar_false_ne_nl (hs1 c hc))]
    rw [afterBlank_nl_cons _ _ (by decide) (by intro h hh; simp at hh; subst hh; decide)]
    rw [afterBlank_append _ _ (by decide)]
    rw [afterBlank_append _ _ (fun c hc => nlChar_false_ne_nl (hf1 c hc))]
    rw [afterBlank_nl_cons _ _ (by decide) (by intro h hh; simp at hh; subst hh; decide)]
    rw [afterBlank_append _ _ (by decide)]
    rw [afterBlank_append _ _ (fun c hc => nlChar_false_ne_nl (ht1 c hc))]
    rw [afterBlank_nl_cons _ _ (by decide) (by intro h hh; simp at hh; subst hh; decide)]
    rw [afterBlank_append _ _ (by decide)]
    rw [afterBlank_append _ _ (fun c hc => nlChar_false_ne_nl (hd1 c hc))]
    exact afterBlank_found b
  unfold binFields
  rw [hsub, hfrom, hto, hdate, hblank]
  rfl

/-- C3 witness: the amended theorem applied to a concrete record. -/
theorem claim_C3_amended_witness :
    binFields ⟨2026, 10, 12, 0, 0, 0, none⟩
      ("Subject: ".toList ++ ("Hello world".toList ++ '\n' ::
        ("From: ".toList ++ ("alice@example.com".toList ++ '\n' ::
          ("To: ".toList ++ ("bob@example.com".toList ++ '\n' ::
            ("Date: ".toList ++ ("Mon, 1 Jan 2024 10 00".toList ++ '\n' :: '\n' ::
              " Body text ".toList)))))))) =
    ⟨"Hello world".toList, "alice@example.com".toList, "bob@example.com".toList,
     "Mon, 1 Jan 2024 10 00".toList, stripEnds " Body text ".toList⟩ :=
  claim_C3_amended ⟨2026, 10, 12, 0, 0, 0, none⟩ _ _ _ _ _
    (by decide) (by decide) (by decide) (by decide)
    (by decide) (by decide) (by decide) (by decide)
    (by decide) (by decide) (by decide) (by decide)
    (by decide) (by decide) (by decide)

/-! ### Claim C7 -/

/-- C7: a record taking the fallback path with no recognisable
`Subject:`/`From:`/`To:`/`Date:` header line and no blank-line
separator yields subject "No Subject", sender "Unknown Sender",
recipient "Unknown Recipient", the current time formatted the
RFC-2822-like way as the date, and the fixed "Content could not be
extracted" body placeholder; extraction is total (no exception). -/
theorem claim_C7 (now : PyDateTime) (content : Str)
    (h1 : searchTok "Subject:".toList content = none)
    (h2 : searchTok "From:".toList content = none)
    (h3 : searchTok "To:".toList content = none)
    (h4 : searchTok "Date:".toList content = none)
    (h5 : afterBlank content = none) :
    binFields now content =
      ⟨"No Subject".toList, "Unknown Sender".toList, "Unknown Recipient".toList,
       fmtDT now, "Content could not be extracted".toList⟩ := by
  unfold binFields
  rw [h1, h2, h3, h4, h5]
  rfl

/-- C7 witness: concrete junk content with no header lines and no
blank-line separator. -/
theorem claim_C7_witness :
    binFields ⟨2026, 10, 12, 0, 0, 0, none⟩ "xyzzy binary junk".toList =
      ⟨"No Subject".toList, "Unknown Sender".toList, "Unknown Recipient".toList,
       fmtDT ⟨2026, 10, 12, 0, 0, 0, none⟩, "Content could not be extracted".toList⟩ :=
  claim_C7 ⟨2026, 10, 12, 0, 0, 0, none⟩ "xyzzy binary junk".toList
    (by decide) (by decide) (by decide) (by decide) (by decide)

/-! ### Claim C6 -/

/-- C6: the fallback heuristic runs exactly when the XML parse oracle
reports a structural error (the `RawRecord` dispatch), and a record
that parses as XML but carries none of the recognised tags does not
fail and does not fall back — every field of the resulting record is
the empty string. -/
theorem claim_C6 :
    (∀ (now : PyDateTime) (root : Xml), convertOne now (.xmlOk root) = extractFromXml root) ∧
    (∀ (now : PyDateTime) (text : Str), convertOne now (.notXml text) = extractFromBinary now text) ∧
    (∀ root : Xml, (∀ e ∈ iterElems root, e.tag ∉ recTags) → xmlFields root = XFields.empty) :=
  ⟨fun _ _ => rfl, fun _ _ => rfl, fun root h => xmlFields_skip root h⟩

/-- C6 witness: a parsed record with only unrecognised tags yields the
all-empty field record. -/
theorem claim_C6_witness :
    xmlFields (.mk "email".toList none [.mk "OPFMessageCopyReceivedTime".toList
      (some "2023-01-01T00:00:00".toList) []]) = XFields.empty :=
  claim_C6.2.2 _ (by decide)

/-! ### Claim C1 -/

/-- C1 counterexample: an emitted fallback message has only four
header lines and none of its lines is a `Message-ID` header, refuting
"every emitted message contains all five header lines". -/
theorem claim_C1_counterexample :
    (headerBlock (extractFromBinary ⟨2026, 10, 12, 0, 0, 0, none⟩ "hello".toList)).length = 4 ∧
    (splitNl (extractFromBinary ⟨2026, 10, 12, 0, 0, 0, none⟩ "hello".toList)).any
      (fun l => "Message-ID:".toList.isPrefixOf l) = false := by
  constructor
  · decide
  · decide

/-- C1 (amended): for a structured record whose element texts contain
no newline character, the emission contains the five header lines
`From`, `To`, `Subject`, `Date`, `Message-ID` in that order, one per
line, before the blank line, and a record missing a field still gets
its header line with an empty value (a newline inside a field value
breaks the one-per-line layout, pushing later headers past a blank
line); a fallback-path emission contains only the four header lines
`From`, `To`, `Subject`, `Date` in that order — the `Message-ID` line
is omitted, missing fields get fixed placeholder values rather than
empty ones, and fallback header values are newline-free by
construction, so no restriction is needed there. -/
theorem claim_C1_amended :
    (∀ root : Xml, (∀ tx ∈ textsOf root, ∀ c ∈ tx, c ≠ '\n') →
      headerBlock (extractFromXml root) =
        ["From: ".toList ++ (xmlFields root).sender,
         "To: ".toList ++ (xmlFields root).recipient,
         "Subject: ".toList ++ (xmlFields root).subject,
         "Date: ".toList ++ (xmlFields root).date,
         "Message-ID: ".toList ++ (xmlFields root).msgid]) ∧
    (∀ (now : PyDateTime) (content : Str),
      headerBlock (extractFromBinary now content) =
        ["From: ".toList ++ (binFields now content).sender,
         "To: ".toList ++ (binFields now content).recipient,
         "Subject: ".toList ++ (binFields now content).subject,
         "Date: ".toList ++ (binFields now content).date]) ∧
    (∀ root : Xml, (∀ e ∈ iterElems root, e.tag ∉ recTags) →
      headerBlock (extractFromXml root) =
        ["From: ".toList, "To: ".toList, "Subject: ".toList,
         "Date: ".toList, "Message-ID: ".toList]) := by
  refine ⟨?_, ?_, ?_⟩
  · intro root h
    have hnl := xmlFields_ne_nl root h
    exact headerBlock_renderXmlEml (xmlFields root)
      hnl.2.1 hnl.2.2.1 hnl.1 hnl.2.2.2.1 hnl.2.2.2.2
  · intro now content
    have hnl := binFields_ne_nl now content
    exact headerBlock_renderBinEml (binFields now content)
      hnl.2.1 hnl.2.2.1 hnl.1 hnl.2.2.2
  · intro root h
    have he := xmlFields_skip root h
    unfold extractFromXml
    rw [he]
    have := headerBlock_renderXmlEml XFields.empty
      (by simp [XFields.empty]) (by simp [XFields.empty]) (by simp [XFields.empty])
      (by simp [XFields.empty]) (by simp [XFields.empty])
    simpa [XFields.empty] using this

/-- C1 witness: the amended theorem at concrete records — a
structured record with no recognised tags (empty header values, five
header lines) and a concrete fallback record (four header lines). -/
theorem claim_C1_amended_witness :
    headerBlock (extractFromXml (.mk "note".toList none [])) =
      ["From: ".toList, "To: ".toList, "Subject: ".toList,
       "Date: ".toList, "Message-ID: ".toList] ∧
    headerBlock (extractFromBinary ⟨2026, 10, 12, 0, 0, 0, none⟩ "hello".toList) =
      ["From: ".toList ++ (binFields ⟨2026, 10, 12, 0, 0, 0, none⟩ "hello".toList).sender,
       "To: ".toList ++ (binFields ⟨2026, 10, 12, 0, 0, 0, none⟩ "hello".toList).recipient,
       "Subject: ".toList ++ (binFields ⟨2026, 10, 12, 0, 0, 0, none⟩ "hello".toList).subject,
       "Date: ".toList ++ (binFields ⟨2026, 10, 12, 0, 0, 0, none⟩ "hello".toList).date] :=
  ⟨claim_C1_amended.2.2 _ (by decide),
   claim_C1_amended.2.1 ⟨2026, 10, 12, 0, 0, 0, none⟩ "hello".toList⟩

/-! ### The record-processing walk -/

theorem convertOne_ne_nil (now : PyDateTime) (r : RawRecord) : convertOne now r ≠ [] := by
  cases r with
  | xmlOk root =>
    show renderXmlEml (xmlFields root) ≠ []
    unfold renderXmlEml
    exact append_ne_nil_left (append_ne_nil_left (by decide))
  | notXml text =>
    show renderBinEml (binFields now text) ≠ []
    unfold renderBinEml
    exact append_ne_nil_left (append_ne_nil_left (by decide))

theorem processAux_spec (now : PyDateTime) (recs : List LocatedRecord) : ∀ k,
    processAux now k recs =
      ((recs.enumFrom k).filterMap (writeFn now),
       (recs.filter (fun r => r.content.isNone)).map LocatedRecord.path,
       k + recs.length) := by
  induction recs with
  | nil => intro k; simp [processAux]
  | cons rec rest ih =>
    intro k
    cases hc : rec.content with
    | none =>
      simp only [processAux, hc, ih (k + 1)]
      simp [List.enumFrom, List.filterMap_cons, writeFn, hc, List.filter_cons]
      omega
    | some raw =>
      have hne := convertOne_ne_nil now raw
      simp only [processAux, hc, ih (k + 1)]
      simp [List.enumFrom, List.filterMap_cons, writeFn, hc, List.filter_cons, hne]
      omega

theorem filterMap_writeFn_length (now : PyDateTime) (recs : List LocatedRecord) : ∀ k,
    ((recs.enumFrom k).filterMap (writeFn now)).length =
      (recs.filter (fun r => r.content.isSome)).length := by
  induction recs with
  | nil => intro k; simp
  | cons rec rest ih =>
    intro k
    cases hc : rec.content with
    | none => simp [List.enumFrom, List.filterMap_cons, writeFn, hc, List.filter_cons, ih (k + 1)]
    | some raw =>
      have hne := convertOne_ne_nil now raw
      simp [List.enumFrom, List.filterMap_cons, writeFn, hc, List.filter_cons, hne, ih (k + 1)]

theorem filter_some_add_none (recs : List LocatedRecord) :
    (recs.filter (fun r => r.content.isSome)).length +
      (recs.filter (fun r => r.content.isNone)).length = recs.length := by
  induction recs with
  | nil => simp
  | cons rec rest ih =>
    cases hc : rec.content with
    | none => simp [List.filter_cons, hc]; omega
    | some raw => simp [List.filter_cons, hc]; omega

theorem map_fst_writes (now : PyDateTime) (recs : List LocatedRecord) : ∀ k,
    ((recs.enumFrom k).filterMap (writeFn now)).map Prod.fst =
      (successIdx k recs).map emlName := by
  induction recs with
  | nil => intro k; simp [successIdx]
  | cons rec rest ih =>
    intro k
    cases hc : rec.content with
    | none => simp [List.enumFrom, List.filterMap_cons, writeFn, hc, successIdx, ih (k + 1)]
    | some raw =>
      have hne := convertOne_ne_nil now raw
      simp [List.enumFrom, List.filterMap_cons, writeFn, hc, successIdx, hne, ih (k + 1)]

theorem successIdx_ge (recs : List LocatedRecord) : ∀ k i, i ∈ successIdx k recs → k ≤ i := by
  induction recs with
  | nil => intro k i h; simp [successIdx] at h
  | cons rec rest ih =>
    intro k i h
    cases hc : rec.content with
    | none =>
      rw [successIdx, hc] at h
      exact Nat.le_of_succ_le (ih (k + 1) i h)
    | some raw =>
      rw [successIdx, hc] at h
      rcases List.mem_cons.mp h with rfl | h'
      · exact Nat.le_refl _
      · exact Nat.le_of_succ_le (ih (k + 1) i h')

theorem successIdx_nodup (recs : List LocatedRecord) : ∀ k, (successIdx k recs).Nodup := by
  induction recs with
  | nil => intro k; simp [successIdx]
  | cons rec rest ih =>
    intro k
    cases hc : rec.content with
    | none => rw [successIdx, hc]; exact ih (k + 1)
    | some raw =>
      rw [successIdx, hc]
      refine List.nodup_cons.mpr ⟨?_, ih (k + 1)⟩
      intro hmem
      have := successIdx_ge rest (k + 1) k hmem
      omega

theorem foldl_replicate_zero (k : Nat) :
    List.foldl (fun a c => a * 10 + (c.toNat - 48)) 0 (List.replicate k '0') = 0 := by
  induction k with
  | zero => rfl
  | succ k ih => simpa [List.replicate_succ] using ih

theorem digitsVal_natDigitsAux (f : Nat) : ∀ n, n < 10 ^ f →
    digitsVal (natDigitsAux f n) = n := by
  induction f with
  | zero =>
    intro n h
    interval_cases n
    rfl
  | succ f ih =>
    intro n h
    by_cases hn : n < 10
    · simp only [natDigitsAux, hn, if_pos]
      simp [digitsVal, digitChar_toNat, Nat.mod_eq_of_lt hn]
    · simp only [natDigitsAux, hn, if_neg, not_false_iff]
      have hdiv : n / 10 < 10 ^ f := by
        rw [Nat.div_lt_iff_lt_mul (by norm_num)]
        calc n < 10 ^ (f + 1) := h
        _ = 10 ^ f * 10 := by rw [Nat.pow_succ]
      have := ih (n / 10) hdiv
      simp only [digitsVal, List.foldl_append] at this ⊢
      rw [this]
      simp [digitChar_toNat]
      omega

theorem digitsVal_natDigits (n : Nat) : digitsVal (natDigits n) = n := by
  apply digitsVal_natDigitsAux
  calc n < 10 ^ n := Nat.lt_pow_self (by norm_num) n
  _ ≤ 10 ^ (n + 1) := Nat.pow_le_pow_right (by norm_num) (Nat.le_succ n)

theorem digitsVal_padNum5 (n : Nat) : digitsVal (padNum5 n) = n := by
  unfold padNum5 digitsVal
  rw [List.foldl_append, foldl_replicate_zero]
  exact digitsVal_natDigits n

theorem emlName_inj {i j : Nat} (h : emlName i = emlName j) : i = j := by
  unfold emlName at h
  have h1 : "message_".toList ++ padNum5 i = "message_".toList ++ padNum5 j :=
    List.append_cancel_right h
  have h2 : padNum5 i = padNum5 j := List.append_cancel_left h1
  have := congrArg digitsVal h2
  rwa [digitsVal_padNum5, digitsVal_padNum5] at this

/-! ### Claims C2, C10, C8 -/

/-- C2: in a run over `N` located records of which exactly `K` are
unreadable, exactly `N − K` message files are written (their names are
pairwise distinct), exactly `K` failures are reported, one per
unreadable record and carrying its path, and the walk runs to
completion (it is a total function producing this result). -/
theorem claim_C2 (now : PyDateTime) (records : List LocatedRecord) :
    (processMessages now records).1.length =
      records.length - (records.filter (fun r => r.content.isNone)).length ∧
    ((processMessages now records).1.map Prod.fst).Nodup ∧
    (processMessages now records).2.1 =
      (records.filter (fun r => r.content.isNone)).map LocatedRecord.path := by
  unfold processMessages
  rw [processAux_spec now records 0]
  refine ⟨?_, ?_, rfl⟩
  · show ((records.enumFrom 0).filterMap (writeFn now)).length = _
    rw [filterMap_writeFn_length]
    have := filter_some_add_none records
    omega
  · show (((records.enumFrom 0).filterMap (writeFn now)).map Prod.fst).Nodup
    rw [map_fst_writes]
    exact (successIdx_nodup records 0).map (fun a b h => emlName_inj h)

/-- C10: the sequence counter is incremented after every record
regardless of whether a file was written, so the final reported
processed count equals the number of located records (not the number
of files written), each record is converted against its walk-order
index, and the emitted file names are exactly the sequence names of
the successful walk-order indices (leaving gaps at failed records). -/
theorem claim_C10 (now : PyDateTime) (records : List LocatedRecord) :
    (processMessages now records).2.2 = records.length ∧
    (processMessages now records).1 = records.enum.filterMap (writeFn now) ∧
    (processMessages now records).1.map Prod.fst = (successIdx 0 records).map emlName := by
  unfold processMessages
  rw [processAux_spec now records 0]
  exact ⟨by simp, rfl, map_fst_writes now records 0⟩

/-- C8: when the container oracle reports an invalid archive, the run
fails with the `InvalidContainer` error (`ValueError("Invalid OLM
file: ...")`) naming the input path, and produces no success payload —
no message files, no processed records. -/
theorem claim_C8 (olmPath : Str) (now : PyDateTime) :
    convert olmPath now none = .error ("Invalid OLM file: ".toList ++ olmPath) ∧
    ∀ result, convert olmPath now none ≠ .ok result :=
  ⟨rfl, fun result h => by simp [convert] at h⟩

/-! ### Field extraction on a canonical structured record -/

theorem scanStep_at_subject (st : XFields) (tx : Option Str) (cs : List Xml) :
    scanStep st (.mk tagSubject tx cs) =
      ⟨tx.getD [], st.sender, st.recipient, st.date, st.body, st.msgid⟩ := by
  simp [scanStep, Xml.tag, Xml.text]

theorem scanStep_at_displayTo (st : XFields) (tx : Option Str) (cs : List Xml) :
    scanStep st (.mk tagDisplayTo tx cs) =
      ⟨st.subject, st.sender, tx.getD [], st.date, st.body, st.msgid⟩ := by
  have h1 : tagDisplayTo ≠ tagSubject := by decide
  simp [scanStep, Xml.tag, Xml.text, h1]

theorem scanStep_at_from (st : XFields) (tx : Option Str) (cs : List Xml) :
    scanStep st (.mk tagFromAddresses tx cs) =
      ⟨st.subject, tx.getD [], st.recipient, st.date, st.body, st.msgid⟩ := by
  have h1 : tagFromAddresses ≠ tagSubject := by decide
  have h2 : tagFromAddresses ≠ tagDisplayTo := by decide
  simp [scanStep, Xml.tag, Xml.text, h1, h2]

theorem scanStep_at_sentTime (st : XFields) (tx : Option Str) (cs : List Xml) :
    scanStep st (.mk tagSentTime tx cs) =
      ⟨st.subject, st.sender, st.recipient, tx.getD [], st.body, st.msgid⟩ := by
  have h1 : tagSentTime ≠ tagSubject := by decide
  have h2 : tagSentTime ≠ tagDisplayTo := by decide
  have h3 : tagSentTime ≠ tagFromAddresses := by decide
  simp [scanStep, Xml.tag, Xml.text, h1, h2, h3]

theorem scanStep_at_body (st : XFields) (b : Str) (cs : List Xml) :
    scanStep st (.mk tagBody (some b) cs) =
      if b ≠ [] then ⟨st.subject, st.sender, st.recipient, st.date, unescape b, st.msgid⟩
      else st := by
  have h1 : tagBody ≠ tagSubject := by decide
  have h2 : tagBody ≠ tagDisplayTo := by decide
  have h3 : tagBody ≠ tagFromAddresses := by decide
  have h4 : tagBody ≠ tagSentTime := by decide
  simp [scanStep, Xml.tag, Xml.text, h1, h2, h3, h4]

theorem scanStep_at_msgid (st : XFields) (tx : Option Str) (cs : List Xml) :
    scanStep st (.mk tagMessageID tx cs) =
      ⟨st.subject, st.sender, st.recipient, st.date, st.body, tx.getD []⟩ := by
  have h1 : tagMessageID ≠ tagSubject := by decide
  have h2 : tagMessageID ≠ tagDisplayTo := by decide
  have h3 : tagMessageID ≠ tagFromAddresses := by decide
  have h4 : tagMessageID ≠ tagSentTime := by decide
  have h5 : tagMessageID ≠ tagBody := by decide
  have h6 : tagMessageID ≠ tagHTMLBody := by decide
  simp [scanStep, Xml.tag, Xml.text, h1, h2, h3, h4, h5, h6]

theorem xmlFields_recordXml (s f t d m b : Str) :
    xmlFields (recordXml s f t d m b) =
      ⟨s, f, t, formatDate d,
       cleanBody (if b ≠ [] then unescape b else []), m⟩ := by
  have hiter : iterElems (recordXml s f t d m b) =
      [recordXml s f t d m b,
       .mk tagSubject (some s) [], .mk tagDisplayTo (some t) [],
       .mk tagFromAddresses (some f) [], .mk tagSentTime (some d) [],
       .mk tagBody (some b) [], .mk tagMessageID (some m) []] := by
    show iterElems (.mk "email".toList none _) = _
    rw [iterElems]
    simp [iterList, iterElems, recordXml]
  have hsf : senderFallback (recordXml s f t d m b) = [] := by
    unfold senderFallback
    rw [hiter]
    rfl
  unfold xmlFields scanFields
  rw [hiter, hsf]
  simp only [List.foldl_cons, List.foldl_nil]
  have htag : (recordXml s f t d m b).tag ∉ recTags := by
    show ("email".toList : Str) ∉ recTags
    decide
  rw [scanStep_skip XFields.empty _ htag, scanStep_at_subject, scanStep_at_displayTo,
      scanStep_at_from, scanStep_at_sentTime, scanStep_at_body]
  by_cases hb : b = []
  · subst hb
    rw [if_neg (by simp)]
    rw [scanStep_at_msgid]
    cases hf : f with
    | nil => simp [XFields.empty]
    | cons c f' => simp [XFields.empty]
  · rw [if_pos hb]
    rw [scanStep_at_msgid]
    cases hf : f with
    | nil => simp [XFields.empty, hb]
    | cons c f' => simp [XFields.empty, hb]

theorem splitNl_renderXmlEml (x : XFields)
    (h1 : ∀ c ∈ x.sender, c ≠ '\n') (h2 : ∀ c ∈ x.recipient, c ≠ '\n')
    (h3 : ∀ c ∈ x.subject, c ≠ '\n') (h4 : ∀ c ∈ x.date, c ≠ '\n')
    (h5 : ∀ c ∈ x.msgid, c ≠ '\n') :
    splitNl (renderXmlEml x) =
      ("From: ".toList ++ x.sender) :: ("To: ".toList ++ x.recipient) ::
      ("Subject: ".toList ++ x.subject) :: ("Date: ".toList ++ x.date) ::
      ("Message-ID: ".toList ++ x.msgid) :: [] :: splitNl (x.body ++ ['\n']) := by
  unfold renderXmlEml
  rw [splitNl_append _ _ (forall_ne_nl_append (ne_nl_of_not_mem (by decide)) h1),
      splitNl_append _ _ (forall_ne_nl_append (ne_nl_of_not_mem (by decide)) h2),
      splitNl_append _ _ (forall_ne_nl_append (ne_nl_of_not_mem (by decide)) h3),
      splitNl_append _ _ (forall_ne_nl_append (ne_nl_of_not_mem (by decide)) h4),
      splitNl_append _ _ (forall_ne_nl_append (ne_nl_of_not_mem (by decide)) h5)]
  rw [show splitNl ('\n' :: (x.body ++ ['\n'])) = [] :: splitNl (x.body ++ ['\n']) by
    simp [splitNl]]

theorem isPrefixOf_false_of_take {p q z : Str}
    (h : (p.take q.length).isPrefixOf q = false) : p.isPrefixOf (q ++ z) = false := by
  cases hpq : p.isPrefixOf (q ++ z)
  · rfl
  · rw [isPrefixOf_take _ _ _ hpq] at h
    exact absurd h (by simp)

/-! ### Claim C5 -/

/-- C5: for a valid structured record (one element per recognised
tag, newline-free field values), re-reading the `From`, `To`,
`Subject` and `Message-ID` header lines of the emitted canonical
message recovers exactly the sender, recipient, subject and
message-id values present in the source record's tags. -/
theorem claim_C5 (s f t d m b : Str)
    (hs : ∀ c ∈ s, c ≠ '\n') (hf : ∀ c ∈ f, c ≠ '\n')
    (ht : ∀ c ∈ t, c ≠ '\n') (hd : ∀ c ∈ d, c ≠ '\n')
    (hm : ∀ c ∈ m, c ≠ '\n') :
    readHeaderLine (extractFromXml (recordXml s f t d m b)) "From: ".toList = some f ∧
    readHeaderLine (extractFromXml (recordXml s f t d m b)) "To: ".toList = some t ∧
    readHeaderLine (extractFromXml (recordXml s f t d m b)) "Subject: ".toList = some s ∧
    readHeaderLine (extractFromXml (recordXml s f t d m b)) "Message-ID: ".toList = some m := by
  have hx := xmlFields_recordXml s f t d m b
  have hsplit : splitNl (extractFromXml (recordXml s f t d m b)) =
      ("From: ".toList ++ f) :: ("To: ".toList ++ t) ::
      ("Subject: ".toList ++ s) :: ("Date: ".toList ++ formatDate d) ::
      ("Message-ID: ".toList ++ m) :: [] ::
      splitNl (cleanBody (if b ≠ [] then unescape b else []) ++ ['\n']) := by
    unfold extractFromXml
    rw [hx]
    exact splitNl_renderXmlEml _ hf ht hs (formatDate_ne_nl d hd) hm
  refine ⟨?_, ?_, ?_, ?_⟩
  · unfold readHeaderLine
    rw [hsplit]
    rw [List.findSome?_cons]
    rw [if_pos (isPrefixOf_append_self "From: ".toList f), List.drop_left]
  · unfold readHeaderLine
    rw [hsplit]
    rw [List.findSome?_cons,
      if_neg (by rw [isPrefixOf_false_of_take (p := "To: ".toList) (by decide)]; simp)]
    rw [List.findSome?_cons]
    rw [if_pos (isPrefixOf_append_self "To: ".toList t), List.drop_left]
  · unfold readHeaderLine
    rw [hsplit]
    rw [List.findSome?_cons,
      if_neg (by rw [isPrefixOf_false_of_take (p := "Subject: ".toList) (by decide)]; simp)]
    rw [List.findSome?_cons,
      if_neg (by rw [isPrefixOf_false_of_take (p := "Subject: ".toList) (by decide)]; simp)]
    rw [List.findSome?_cons]
    rw [if_pos (isPrefixOf_append_self "Subject: ".toList s), List.drop_left]
  · unfold readHeaderLine
    rw [hsplit]
    rw [List.findSome?_cons,
      if_neg (by rw [isPrefixOf_false_of_take (p := "Message-ID: ".toList) (by decide)]; simp)]
    rw [List.findSome?_cons,
      if_neg (by rw [isPrefixOf_false_of_take (p := "Message-ID: ".toList) (by decide)]; simp)]
    rw [List.findSome?_cons,
      if_neg (by rw [isPrefixOf_false_of_take (p := "Message-ID: ".toList) (by decide)]; simp)]
    rw [List.findSome?_cons,
      if_neg (by rw [isPrefixOf_false_of_take (p := "Message-ID: ".toList) (by decide)]; simp)]
    rw [List.findSome?_cons]
    rw [if_pos (isPrefixOf_append_self "Message-ID: ".toList m), List.drop_left]

/-- C5 witness: the round-trip at a concrete structured record. -/
theorem claim_C5_witness :
    readHeaderLine (extractFromXml (recordXml "Hi".toList "a@x".toList "b@y".toList
      "2023-03-06T14:30:00Z".toList "<id@x>".toList "Body".toList)) "From: ".toList =
        some "a@x".toList ∧
    readHeaderLine (extractFromXml (recordXml "Hi".toList "a@x".toList "b@y".toList
      "2023-03-06T14:30:00Z".toList "<id@x>".toList "Body".toList)) "To: ".toList =
        some "b@y".toList ∧
    readHeaderLine (extractFromXml (recordXml "Hi".toList "a@x".toList "b@y".toList
      "2023-03-06T14:30:00Z".toList "<id@x>".toList "Body".toList)) "Subject: ".toList =
        some "Hi".toList ∧
    readHeaderLine (extractFromXml (recordXml "Hi".toList "a@x".toList "b@y".toList
      "2023-03-06T14:30:00Z".toList "<id@x>".toList "Body".toList)) "Message-ID: ".toList =
        some "<id@x>".toList :=
  claim_C5 "Hi".toList "a@x".toList "b@y".toList "2023-03-06T14:30:00Z".toList
    "<id@x>".toList "Body".toList
    (by decide) (by decide) (by decide) (by decide) (by decide)

/-! ### Claim C9 -/

theorem rfcShape_fmtDT (dt : PyDateTime) : rfcShape (fmtDT dt) = true := by
  have hlt : dayOfWeek dt.year dt.month dt.day < weekNames.length := by
    show _ < 7
    unfold dayOfWeek
    exact Nat.mod_lt _ (by norm_num)
  have hmem : weekNames.getD (dayOfWeek dt.year dt.month dt.day) [] ∈ weekNames := by
    rw [List.getD_eq_getElem weekNames [] hlt]
    exact List.getElem_mem hlt
  apply List.any_eq_true.mpr
  refine ⟨weekNames.getD (dayOfWeek dt.year dt.month dt.day) [], hmem, ?_⟩
  unfold fmtDT
  simp only [List.append_assoc]
  rw [← List.append_assoc (weekNames.getD (dayOfWeek dt.year dt.month dt.day) []) ", ".toList]
  exact isPrefixOf_append_self _ _

/-- C9: when a structured record's sent-time value contains the ISO
time separator `'T'`, it is reformatted — if `fromisoformat` accepts
the `Z`-normalised value the emitted date is the RFC-2822-like display
string (opening with a day-of-week abbreviation and comma); if the
parse fails the raw value is kept unchanged — reformatting failure is
never fatal.  The record field equals `formatDate` of the raw tag. -/
theorem claim_C9 (d : Str) (hT : 'T' ∈ d) :
    (∀ dt, parseIso (replaceZ d) = some dt →
      formatDate d = fmtDT dt ∧ rfcShape (formatDate d) = true) ∧
    (parseIso (replaceZ d) = none → formatDate d = d) ∧
    (∀ s f t m b, (xmlFields (recordXml s f t d m b)).date = formatDate d) := by
  have hne : d ≠ [] := List.ne_nil_of_mem hT
  refine ⟨?_, ?_, ?_⟩
  · intro dt hp
    have hfmt : formatDate d = fmtDT dt := by
      unfold formatDate
      rw [if_pos ⟨hne, hT⟩, hp]
    exact ⟨hfmt, by rw [hfmt]; exact rfcShape_fmtDT dt⟩
  · intro hp
    unfold formatDate
    rw [if_pos ⟨hne, hT⟩, hp]
  · intro s f t m b
    rw [xmlFields_recordXml]

/-- C9 witness: a concrete ISO sent-time with a `Z` suffix is
reformatted to the RFC-2822-like display string. -/
theorem claim_C9_witness :
    formatDate "2023-03-06T14:30:00Z".toList = "Mon, 06 Mar 2023 14:30:00 +0000".toList ∧
    rfcShape (formatDate "2023-03-06T14:30:00Z".toList) = true ∧
    (xmlFields (recordXml [] [] [] "2023-03-06T14:30:00Z".toList [] [])).date =
      formatDate "2023-03-06T14:30:00Z".toList := by
  have h := claim_C9 "2023-03-06T14:30:00Z".toList (by decide)
  have h1 := h.1 ⟨2023, 3, 6, 14, 30, 0, some 0⟩ (by decide)
  refine ⟨?_, h1.2, h.2.2 [] [] [] [] []⟩
  rw [h1.1]
  decide

/-! ### Tag-stripped text contains no tag group -/

theorem stripTagsF_zero (s : Str) : stripTagsF 0 s = s := by
  cases s <;> rfl

theorem stripTagsF_nil (fl : Nat) : stripTagsF fl [] = [] := by
  cases fl <;> rfl

theorem stripTagsF_succ (f : Nat) (c : Char) (r : Str) :
    stripTagsF (f + 1) (c :: r) =
      if c = '<' then
        (if r.takeWhile (fun x => x ≠ '>') ≠ [] ∧
            (r.takeWhile (fun x => x ≠ '>')).length < r.length
         then stripTagsF f (r.drop ((r.takeWhile (fun x => x ≠ '>')).length + 1))
         else c :: stripTagsF f r)
      else c :: stripTagsF f r := rfl

theorem mem_stripTagsF : ∀ (fl : Nat) (s : Str) (c : Char), c ∈ stripTagsF fl s → c ∈ s := by
  intro fl
  induction fl with
  | zero =>
    intro s c h
    rwa [stripTagsF_zero] at h
  | succ f ih =>
    intro s c h
    cases s with
    | nil => rw [stripTagsF_nil] at h; simp at h
    | cons a r =>
      rw [stripTagsF_succ] at h
      by_cases ha : a = '<'
      · rw [if_pos ha] at h
        by_cases hc : r.takeWhile (fun x => x ≠ '>') ≠ [] ∧
            (r.takeWhile (fun x => x ≠ '>')).length < r.length
        · rw [if_pos hc] at h
          exact List.mem_cons.mpr (Or.inr (List.mem_of_mem_drop (ih _ c h)))
        · rw [if_neg hc] at h
          rcases List.mem_cons.mp h with rfl | h'
          · simp
          · exact List.mem_cons.mpr (Or.inr (ih _ c h'))
      · rw [if_neg ha] at h
        rcases List.mem_cons.mp h with rfl | h'
        · simp
        · exact List.mem_cons.mpr (Or.inr (ih _ c h'))

theorem no_gt_wellAngled : ∀ s : Str, ('>' : Char) ∉ s → wellAngled s = true := by
  intro s
  induction s with
  | nil => intro _; rfl
  | cons c r ih =>
    intro h
    by_cases hc : c = '<'
    · subst hc
      have hr : ('>' : Char) ∉ r := fun hm => h (by simp [hm])
      have hh : r.head? ≠ some '>' := by
        intro hh
        cases r with
        | nil => simp at hh
        | cons x xs =>
          simp at hh
          exact hr (by simp [hh])
      simp only [wellAngled, if_pos rfl]
      rw [if_neg hh]
      have hcf : r.contains '>' = false := by
        cases hcon : r.contains '>'
        · rfl
        · exact absurd (List.elem_iff.mp hcon) hr
      rw [hcf]
      rfl
    · simp only [wellAngled, if_neg hc]
      exact ih (fun hm => h (by simp [hm]))

theorem wellAngled_tail {c : Char} {r : Str} (h : wellAngled (c :: r) = true) :
    wellAngled r = true := by
  by_cases hc : c = '<'
  · subst hc
    simp only [wellAngled, if_pos rfl] at h
    by_cases hh : r.head? = some '>'
    · rw [if_pos hh] at h
      exact h
    · rw [if_neg hh] at h
      apply no_gt_wellAngled
      intro hm
      rw [show r.contains '>' = true from List.elem_iff.mpr hm] at h
      simp at h
  · simp only [wellAngled, if_neg hc] at h
    exact h

theorem takeWhile_all {p : Char → Bool} : ∀ r : Str, (∀ c ∈ r, p c = true) →
    r.takeWhile p = r := by
  intro r
  induction r with
  | nil => intro _; rfl
  | cons c r' ih =>
    intro h
    rw [List.takeWhile_cons_of_pos (h c (by simp))]
    rw [ih (fun x hx => h x (by simp [hx]))]

theorem gt_not_mem_of_takeWhile_eq {r : Str}
    (ht : r.takeWhile (fun x => x ≠ '>') = r) : ('>' : Char) ∉ r := by
  intro hm
  have := List.mem_takeWhile_imp (ht ▸ hm)
  simp at this

theorem takeWhile_eq_self_of_le {r : Str}
    (h : r.length ≤ (r.takeWhile (fun x => x ≠ '>')).length) :
    r.takeWhile (fun x => x ≠ '>') = r := by
  have hp := List.takeWhile_prefix (l := r) (fun x => x ≠ '>')
  exact hp.eq_of_length (Nat.le_antisymm hp.length_le h)

theorem wellAngled_cons (c : Char) (r : Str) :
    wellAngled (c :: r) =
      if c = '<' then
        (if r.head? = some '>' then wellAngled r else !r.contains '>')
      else wellAngled r := rfl

theorem stripTagsF_gt_head (fl : Nat) (r' : Str) :
    ∃ X, stripTagsF fl ('>' :: r') = '>' :: X := by
  cases fl with
  | zero => exact ⟨r', stripTagsF_zero _⟩
  | succ f =>
    rw [stripTagsF_succ]
    rw [if_neg (by decide)]
    exact ⟨stripTagsF f r', rfl⟩

theorem wellAngled_stripTagsF : ∀ (fl : Nat) (s : Str), s.length ≤ fl →
    wellAngled (stripTagsF fl s) = true := by
  intro fl
  induction fl with
  | zero =>
    intro s hs
    have h0 : s = [] := List.eq_nil_of_length_eq_zero (Nat.le_zero.mp hs)
    subst h0
    rfl
  | succ f ih =>
    intro s hs
    cases s with
    | nil => rw [stripTagsF_nil]; rfl
    | cons a r =>
      have hrlen : r.length ≤ f := by simp at hs; omega
      rw [stripTagsF_succ]
      by_cases ha : a = '<'
      · rw [if_pos ha]
        by_cases hc : r.takeWhile (fun x => x ≠ '>') ≠ [] ∧
            (r.takeWhile (fun x => x ≠ '>')).length < r.length
        · rw [if_pos hc]
          apply ih
          calc (r.drop ((r.takeWhile (fun x => x ≠ '>')).length + 1)).length
              ≤ r.length := by rw [List.length_drop]; omega
          _ ≤ f := hrlen
        · rw [if_neg hc]
          subst ha
          push_neg at hc
          by_cases ht : r.takeWhile (fun x => x ≠ '>') = []
          · cases r with
            | nil =>
              rw [stripTagsF_nil]
              decide
            | cons b r' =>
              have hb : b = '>' := by
                by_cases hb : b = '>'
                · exact hb
                · rw [List.takeWhile_cons_of_pos (by simp [hb])] at ht
                  simp at ht
              subst hb
              obtain ⟨X, hX⟩ := stripTagsF_gt_head f r'
              rw [hX]
              show wellAngled ('<' :: '>' :: X) = true
              rw [wellAngled_cons, if_pos rfl,
                if_pos (show ('>' :: X).head? = some '>' from rfl)]
              rw [← hX]
              exact ih _ hrlen
          · have hle := hc ht
            have ht2 := takeWhile_eq_self_of_le hle
            have hgt := gt_not_mem_of_takeWhile_eq ht2
            apply no_gt_wellAngled
            intro hm
            rcases List.mem_cons.mp hm with he | hm'
            · exact absurd he (by decide)
            · exact hgt (mem_stripTagsF f r '>' hm')
      · rw [if_neg ha]
        simp only [wellAngled, if_neg ha]
        exact ih r hrlen

theorem wellAngled_stripTags (s : Str) : wellAngled (stripTags s) = true :=
  wellAngled_stripTagsF s.length s (Nat.le_refl _)

theorem hasTagSeq_cons (c : Char) (r : Str) :
    hasTagSeq (c :: r) =
      if c = '<' then
        (if r.takeWhile (fun x => x ≠ '>') ≠ [] ∧
            (r.takeWhile (fun x => x ≠ '>')).length < r.length
         then true else hasTagSeq r)
      else hasTagSeq r := rfl

theorem wellAngled_no_tagSeq : ∀ s : Str, wellAngled s = true → hasTagSeq s = false := by
  intro s
  induction s with
  | nil => intro _; rfl
  | cons c r ih =>
    intro h
    rw [hasTagSeq_cons]
    by_cases hc : c = '<'
    · rw [if_pos hc]
      subst hc
      rw [wellAngled_cons, if_pos rfl] at h
      by_cases hh : r.head? = some '>'
      · have ht : r.takeWhile (fun x => x ≠ '>') = [] := by
          cases r with
          | nil => rfl
          | cons b r' =>
            simp at hh
            subst hh
            rw [List.takeWhile_cons_of_neg (by simp)]
        rw [if_neg (by rw [ht]; simp)]
        rw [if_pos hh] at h
        exact ih h
      · rw [if_neg hh] at h
        have hgt : ('>' : Char) ∉ r := by
          intro hm
          have hce : r.contains '>' = true := List.elem_iff.mpr hm
          rw [hce] at h
          simp at h
        have ht : r.takeWhile (fun x => x ≠ '>') = r :=
          takeWhile_all r (fun x hx => by
            simp only [ne_eq, decide_eq_true_eq]
            exact fun he => hgt (he ▸ hx))
        rw [if_neg (by rw [ht]; simp)]
        exact ih (no_gt_wellAngled r hgt)
    · rw [if_neg hc]
      exact ih (wellAngled_tail h)

/-! ### Whitespace collapsing preserves tag- and entity-freedom -/

theorem collapseAux_cons (flag : Bool) (a : Char) (r : Str) :
    collapseAux flag (a :: r) =
      if wsChar a then (if flag then collapseAux true r else ' ' :: collapseAux true r)
      else a :: collapseAux false r := rfl

theorem mem_collapseAux : ∀ (s : Str) (flag : Bool) (c : Char),
    c ∈ collapseAux flag s → c = ' ' ∨ c ∈ s := by
  intro s
  induction s with
  | nil => intro flag c h; simp [collapseAux] at h
  | cons a r ih =>
    intro flag c h
    rw [collapseAux_cons] at h
    by_cases hw : wsChar a = true
    · rw [if_pos hw] at h
      cases flag with
      | false =>
        rw [if_neg (by simp)] at h
        rcases List.mem_cons.mp h with rfl | h'
        · exact Or.inl rfl
        · rcases ih true c h' with he | hm
          · exact Or.inl he
          · exact Or.inr (by simp [hm])
      | true =>
        rw [if_pos rfl] at h
        rcases ih true c h with he | hm
        · exact Or.inl he
        · exact Or.inr (by simp [hm])
    · rw [if_neg hw] at h
      rcases List.mem_cons.mp h with rfl | h'
      · exact Or.inr (by simp)
      · rcases ih false c h' with he | hm
        · exact Or.inl he
        · exact Or.inr (by simp [hm])

theorem wellAngled_collapseAux : ∀ s : Str, wellAngled s = true → ∀ flag,
    wellAngled (collapseAux flag s) = true := by
  intro s
  induction s with
  | nil => intro _ flag; rfl
  | cons a r ih =>
    intro h flag
    rw [collapseAux_cons]
    by_cases hw : wsChar a = true
    · rw [if_pos hw]
      have hr := wellAngled_tail h
      cases flag with
      | false =>
        rw [if_neg (by simp)]
        rw [wellAngled_cons, if_neg (by decide)]
        exact ih hr true
      | true =>
        rw [if_pos rfl]
        exact ih hr true
    · rw [if_neg hw]
      by_cases ha : a = '<'
      · subst ha
        rw [wellAngled_cons, if_pos rfl]
        rw [wellAngled_cons, if_pos rfl] at h
        by_cases hh : r.head? = some '>'
        · obtain ⟨r', rfl⟩ : ∃ r', r = '>' :: r' := by
            cases r with
            | nil => simp at hh
            | cons x xs =>
              simp at hh
              subst hh
              exact ⟨xs, rfl⟩
          rw [if_pos hh] at h
          have hcc : collapseAux false ('>' :: r') = '>' :: collapseAux false r' := by
            rw [collapseAux_cons, if_neg (by decide)]
          rw [hcc, if_pos (show ('>' :: collapseAux false r').head? = some '>' from rfl)]
          rw [← hcc]
          exact ih h false
        · rw [if_neg hh] at h
          have hgt : ('>' : Char) ∉ r := by
            intro hm
            have hce : r.contains '>' = true := List.elem_iff.mpr hm
            rw [hce] at h
            simp at h
          have hgt2 : ('>' : Char) ∉ collapseAux false r := by
            intro hm
            rcases mem_collapseAux r false '>' hm with he | hm'
            · exact absurd he (by decide)
            · exact hgt hm'
          by_cases hh2 : (collapseAux false r).head? = some '>'
          · exfalso
            cases hcol : collapseAux false r with
            | nil => rw [hcol] at hh2; simp at hh2
            | cons x xs =>
              rw [hcol] at hh2
              simp at hh2
              exact hgt2 (by rw [hcol]; simp [hh2])
          · rw [if_neg hh2]
            have hcf : (collapseAux false r).contains '>' = false := by
              cases hcon : (collapseAux false r).contains '>'
              · rfl
              · exact absurd (List.elem_iff.mp hcon) hgt2
            rw [hcf]
            rfl
      · rw [wellAngled_cons, if_neg ha]
        exact ih (wellAngled_tail h) false

theorem hasEntity_cons (c : Char) (r : Str) :
    hasEntity (c :: r) = if (entAt (c :: r)).isSome then true else hasEntity r := rfl

theorem hasEntity_tail {c : Char} {r : Str} (h : hasEntity (c :: r) = false) :
    hasEntity r = false := by
  rw [hasEntity_cons] at h
  by_cases he : (entAt (c :: r)).isSome
  · rw [if_pos he] at h
    exact absurd h (by simp)
  · rwa [if_neg he] at h

theorem entAt_none_of_hasEntity {c : Char} {r : Str} (h : hasEntity (c :: r) = false) :
    entAt (c :: r) = none := by
  rw [hasEntity_cons] at h
  by_cases he : (entAt (c :: r)).isSome
  · rw [if_pos he] at h
    exact absurd h (by simp)
  · exact Option.not_isSome_iff_eq_none.mp he

theorem isPrefixOf_cons_head {a : Char} {as : Str} {b : Char} {bs : Str}
    (h : (a :: as).isPrefixOf (b :: bs) = true) : a = b := by
  simp [List.isPrefixOf] at h
  exact h.1

theorem entAt_not_amp {c : Char} (x : Str) (hc : c ≠ '&') : entAt (c :: x) = none := by
  unfold entAt
  rw [List.find?_eq_none]
  intro p hp hpre
  fin_cases hp <;> exact hc (isPrefixOf_cons_head (by simpa using hpre)).symm

theorem nonws_prefix_collapse : ∀ e : Str, (∀ c ∈ e, wsChar c = false) →
    ∀ s : Str, e.isPrefixOf (collapseAux false s) = true → e.isPrefixOf s = true := by
  intro e
  induction e with
  | nil => intro _ s _; simp [List.isPrefixOf]
  | cons e0 e' ih =>
    intro he s h
    cases s with
    | nil => simp [collapseAux, List.isPrefixOf] at h
    | cons a r =>
      rw [collapseAux_cons] at h
      by_cases hw : wsChar a = true
      · rw [if_pos hw, if_neg (by simp)] at h
        have h0 : e0 = ' ' := isPrefixOf_cons_head h
        have hws := he e0 (by simp)
        rw [h0] at hws
        simp [wsChar] at hws
      · rw [if_neg hw] at h
        have h0 : e0 = a := isPrefixOf_cons_head h
        have h1 : e'.isPrefixOf (collapseAux false r) = true := by
          rw [show (e0 :: e').isPrefixOf (a :: collapseAux false r) =
              ((e0 == a) && e'.isPrefixOf (collapseAux false r)) from rfl] at h
          exact Bool.and_elim_right h
        subst h0
        have h2 := ih (fun c hc => he c (by simp [hc])) r h1
        rw [show (e0 :: e').isPrefixOf (e0 :: r) = ((e0 == e0) && e'.isPrefixOf r) from rfl]
        simp [h2]

theorem hasEntity_collapseAux : ∀ s : Str, hasEntity s = false → ∀ flag,
    hasEntity (collapseAux flag s) = false := by
  intro s
  induction s with
  | nil => intro _ flag; rfl
  | cons a r ih =>
    intro h flag
    have hr := hasEntity_tail h
    rw [collapseAux_cons]
    by_cases hw : wsChar a = true
    · rw [if_pos hw]
      cases flag with
      | false =>
        rw [if_neg (by simp)]
        rw [hasEntity_cons, if_neg (by rw [entAt_not_amp _ (by decide)]; simp)]
        exact ih hr true
      | true =>
        rw [if_pos rfl]
        exact ih hr true
    · rw [if_neg hw]
      rw [hasEntity_cons]
      have hnone : entAt (a :: collapseAux false r) = none := by
        cases hent : entAt (a :: collapseAux false r) with
        | none => rfl
        | some e =>
          exfalso
          have hmem : e ∈ entTable := List.mem_of_find?_eq_some hent
          have hpre : e.1.isPrefixOf (a :: collapseAux false r) = true := by
            simpa using List.find?_some hent
          have hws : ∀ c ∈ e.1, wsChar c = false := by
            fin_cases hmem <;> decide
          have hpre2 : e.1.isPrefixOf (a :: r) = true := by
            have hcoll : a :: collapseAux false r = collapseAux false (a :: r) := by
              rw [collapseAux_cons, if_neg hw]
            rw [hcoll] at hpre
            exact nonws_prefix_collapse e.1 hws (a :: r) hpre
          have hnone2 : entAt (a :: r) = none := entAt_none_of_hasEntity h
          have hno := List.find?_eq_none.mp hnone2 e hmem
          exact hno hpre2
      rw [if_neg (by simp [hnone])]
      exact ih hr false

/-! ### End-stripping preserves tag- and entity-freedom -/

theorem isPrefixOf_extend : ∀ {p x : Str} (z : Str), p.isPrefixOf x = true →
    p.isPrefixOf (x ++ z) = true := by
  intro p
  induction p with
  | nil => intro x z _; simp [List.isPrefixOf]
  | cons a as ih =>
    intro x z h
    cases x with
    | nil => simp [List.isPrefixOf] at h
    | cons b bs =>
      rw [show (a :: as).isPrefixOf (b :: bs) = ((a == b) && as.isPrefixOf bs) from rfl] at h
      rw [List.cons_append,
        show (a :: as).isPrefixOf (b :: (bs ++ z)) = ((a == b) && as.isPrefixOf (bs ++ z)) from rfl]
      rw [Bool.and_elim_left h, ih z (Bool.and_elim_right h)]
      rfl

theorem hasEntity_append_left : ∀ (a b : Str), hasEntity a = true →
    hasEntity (a ++ b) = true := by
  intro a b
  induction a with
  | nil => intro h; simp [hasEntity] at h
  | cons c r ih =>
    intro h
    rw [hasEntity_cons] at h
    rw [List.cons_append, hasEntity_cons]
    by_cases he : (entAt (c :: r)).isSome
    · obtain ⟨e, hent⟩ := Option.isSome_iff_exists.mp he
      have hmem := List.mem_of_find?_eq_some hent
      have hpre : e.1.isPrefixOf (c :: r) = true := by
        simpa using List.find?_some hent
      have hpre2 : e.1.isPrefixOf ((c :: r) ++ b) = true := isPrefixOf_extend b hpre
      have hsome : (entAt ((c :: r) ++ b)).isSome := by
        unfold entAt
        rw [List.find?_isSome]
        exact ⟨e, hmem, by simpa using hpre2⟩
      rw [if_pos (by simpa [List.cons_append] using hsome)]
    · rw [if_neg he] at h
      by_cases he2 : (entAt (c :: (r ++ b))).isSome
      · rw [if_pos he2]
      · rw [if_neg he2]
        exact ih h

theorem hasEntity_prefix_false {a b : Str} (h : hasEntity (a ++ b) = false) :
    hasEntity a = false := by
  cases ha : hasEntity a
  · rfl
  · rw [hasEntity_append_left a b ha] at h
    exact absurd h (by simp)

theorem hasEntity_dropWhile (p : Char → Bool) : ∀ s : Str, hasEntity s = false →
    hasEntity (s.dropWhile p) = false := by
  intro s
  induction s with
  | nil => intro h; exact h
  | cons c r ih =>
    intro h
    rw [List.dropWhile_cons]
    by_cases hp : p c = true
    · rw [if_pos hp]
      exact ih (hasEntity_tail h)
    · rw [if_neg hp]
      exact h

theorem wellAngled_dropWhile (p : Char → Bool) : ∀ s : Str, wellAngled s = true →
    wellAngled (s.dropWhile p) = true := by
  intro s
  induction s with
  | nil => intro h; exact h
  | cons c r ih =>
    intro h
    rw [List.dropWhile_cons]
    by_cases hp : p c = true
    · rw [if_pos hp]
      exact ih (wellAngled_tail h)
    · rw [if_neg hp]
      exact h

theorem wellAngled_prefix : ∀ (a b : Str), wellAngled (a ++ b) = true →
    wellAngled a = true := by
  intro a
  induction a with
  | nil => intro b _; rfl
  | cons c a' ih =>
    intro b h
    by_cases hc : c = '<'
    · subst hc
      rw [List.cons_append, wellAngled_cons, if_pos rfl] at h
      rw [wellAngled_cons, if_pos rfl]
      cases a' with
      | nil => simp
      | cons d a'' =>
        by_cases hd : d = '>'
        · subst hd
          rw [if_pos (show (('>' :: a'') : Str).head? = some '>' from rfl)]
          rw [if_pos (show ((('>' :: a'') : Str) ++ b).head? = some '>' from rfl)] at h
          exact ih b h
        · rw [if_neg (by simp [hd])] at h
          rw [if_neg (by simp [hd])]
          have hgt : ('>' : Char) ∉ (d :: a'') ++ b := by
            intro hm
            have hce : ((d :: a'') ++ b).contains '>' = true := List.elem_iff.mpr hm
            rw [hce] at h
            simp at h
          have hgt2 : ('>' : Char) ∉ (d :: a'') :=
            fun hm => hgt (List.mem_append.mpr (Or.inl hm))
          have hcf : (d :: a'').contains '>' = false := by
            cases hcon : (d :: a'').contains '>'
            · rfl
            · exact absurd (List.elem_iff.mp hcon) hgt2
          rw [hcf]
          rfl
    · rw [List.cons_append, wellAngled_cons, if_neg hc] at h
      rw [wellAngled_cons, if_neg hc]
      exact ih b h

theorem stripEnds_decomp (s : Str) : ∃ z, stripEnds s ++ z = s.dropWhile wsChar := by
  unfold stripEnds
  obtain ⟨x, hx⟩ := List.dropWhile_suffix (l := (s.dropWhile wsChar).reverse) wsChar
  refine ⟨x.reverse, ?_⟩
  have h2 : (x ++ (s.dropWhile wsChar).reverse.dropWhile wsChar).reverse =
      (s.dropWhile wsChar).reverse.reverse := by rw [hx]
  simpa [List.reverse_append, List.reverse_reverse] using h2

theorem wellAngled_stripEnds {s : Str} (h : wellAngled s = true) :
    wellAngled (stripEnds s) = true := by
  obtain ⟨z, hz⟩ := stripEnds_decomp s
  have h1 : wellAngled (s.dropWhile wsChar) = true := wellAngled_dropWhile wsChar s h
  rw [← hz] at h1
  exact wellAngled_prefix _ z h1

theorem hasEntity_stripEnds {s : Str} (h : hasEntity s = false) :
    hasEntity (stripEnds s) = false := by
  obtain ⟨z, hz⟩ := stripEnds_decomp s
  have h1 : hasEntity (s.dropWhile wsChar) = false := hasEntity_dropWhile wsChar s h
  rw [← hz] at h1
  exact hasEntity_prefix_false h1

theorem unescF_succ (f : Nat) (c : Char) (r : Str) :
    unescF (f + 1) (c :: r) =
      match entAt (c :: r) with
      | some e => e.2 :: unescF f (r.drop (e.1.length - 1))
      | none => c :: unescF f r := rfl

theorem unescF_id : ∀ (s : Str), hasEntity s = false → ∀ fl, unescF fl s = s := by
  intro s
  induction s with
  | nil => intro _ fl; cases fl <;> rfl
  | cons c r ih =>
    intro h fl
    cases fl with
    | zero => rfl
    | succ f =>
      have hnone := entAt_none_of_hasEntity h
      have h1 : unescF (f + 1) (c :: r) = c :: unescF f r := by
        rw [unescF_succ, hnone]
      rw [h1, ih (hasEntity_tail h) f]

theorem unescape_id {s : Str} (h : hasEntity s = false) : unescape s = s :=
  unescF_id s h s.length

theorem cleanBody_clean (lb : Str) (hh : lb.headD ' ' = '<')
    (hent : hasEntity (stripTags lb) = false) :
    hasTagSeq (cleanBody lb) = false ∧ hasEntity (cleanBody lb) = false := by
  have hne : lb ≠ [] := by
    intro he
    rw [he] at hh
    simp at hh
  unfold cleanBody
  rw [if_pos ⟨hne, hh⟩]
  rw [unescape_id hent]
  have hwa : wellAngled (stripTags lb) = true := wellAngled_stripTags lb
  have hwa2 : wellAngled (collapseWs (stripTags lb)) = true :=
    wellAngled_collapseAux (stripTags lb) hwa false
  have hwa3 : wellAngled (stripEnds (collapseWs (stripTags lb))) = true :=
    wellAngled_stripEnds hwa2
  have hent2 : hasEntity (collapseWs (stripTags lb)) = false :=
    hasEntity_collapseAux (stripTags lb) hent false
  have hent3 : hasEntity (stripEnds (collapseWs (stripTags lb))) = false :=
    hasEntity_stripEnds hent2
  exact ⟨wellAngled_no_tagSeq _ hwa3, hent3⟩

theorem hasEntity_of_no_amp : ∀ s : Str, ('&' : Char) ∉ s → hasEntity s = false := by
  intro s
  induction s with
  | nil => intro h; rfl
  | cons c r ih =>
    intro h
    have hc : c ≠ '&' := fun he => h (he ▸ List.mem_cons_self c r)
    rw [hasEntity_cons, if_neg (by rw [entAt_not_amp r hc]; simp)]
    exact ih fun hm => h (List.mem_cons_of_mem c hm)

theorem amp_not_mem_collapseAux {s : Str} (h : ('&' : Char) ∉ s) (flag : Bool) :
    ('&' : Char) ∉ collapseAux flag s := by
  intro hm
  rcases mem_collapseAux s flag '&' hm with he | hm'
  · exact absurd he (by decide)
  · exact h hm'

theorem amp_not_mem_stripEnds {s : Str} (h : ('&' : Char) ∉ s) :
    ('&' : Char) ∉ stripEnds s := by
  intro hm
  obtain ⟨z, hz⟩ := stripEnds_decomp s
  have hm2 : ('&' : Char) ∈ s.dropWhile wsChar := by
    rw [← hz]
    exact List.mem_append_left z hm
  exact h ((List.dropWhile_suffix wsChar).subset hm2)

/-! ### Claim C4 -/

/-- C4 counterexample: a structured record whose body holds
doubly-escaped markup.  After the loop's first entity decode the body
is `<p>&lt;b&gt;</p>` (starts with `<`); tag removal leaves
`&lt;b&gt;`, and the second decode turns it into `<b>` — the
normalized body contains a `<...>` tag sequence, refuting the claim. -/
theorem claim_C4_counterexample :
    hasTagSeq ((xmlFields (recordXml [] [] [] [] []
      "<p>&amp;lt;b&amp;gt;</p>".toList)).body) = true ∧
    (xmlFields (recordXml [] [] [] [] [] "<p>&amp;lt;b&amp;gt;</p>".toList)).body =
      "<b>".toList := by
  constructor
  · decide
  · decide

/-- C4 (amended): for a structured record whose body text begins with
`<` and contains no ampersand character (hence no HTML character
reference at all), the normalized body contains no `<...>` tag
sequence and no ampersand — so no HTML entity escape either.  Bodies
that do carry character references can survive normalization as
literal markup or escapes, as the counterexample shows. -/
theorem claim_C4_amended (s f t d m raw : Str) (h0 : raw ≠ [])
    (h1 : raw.headD ' ' = '<') (h2 : ('&' : Char) ∉ raw) :
    hasTagSeq ((xmlFields (recordXml s f t d m raw)).body) = false ∧
    ('&' : Char) ∉ (xmlFields (recordXml s f t d m raw)).body := by
  rw [xmlFields_recordXml]
  show hasTagSeq (cleanBody (if raw ≠ [] then unescape raw else [])) = false ∧
    ('&' : Char) ∉ cleanBody (if raw ≠ [] then unescape raw else [])
  rw [if_pos h0, unescape_id (hasEntity_of_no_amp raw h2)]
  have hamp1 : ('&' : Char) ∉ stripTags raw :=
    fun hm => h2 (mem_stripTagsF raw.length raw '&' hm)
  unfold cleanBody
  rw [if_pos ⟨h0, h1⟩, unescape_id (hasEntity_of_no_amp _ hamp1)]
  refine ⟨?_, ?_⟩
  · exact wellAngled_no_tagSeq _
      (wellAngled_stripEnds
        (wellAngled_collapseAux (stripTags raw) (wellAngled_stripTags raw) false))
  · exact amp_not_mem_stripEnds (amp_not_mem_collapseAux hamp1 false)

/-- C4 witness: a concrete ampersand-free HTML body normalizes to
text free of tags and ampersands. -/
theorem claim_C4_witness :
    hasTagSeq ((xmlFields (recordXml [] [] [] [] []
      "<p>Hello   world</p>".toList)).body) = false ∧
    ('&' : Char) ∉ (xmlFields (recordXml [] [] [] [] []
      "<p>Hello   world</p>".toList)).body :=
  claim_C4_amended [] [] [] [] [] "<p>Hello   world</p>".toList
    (by decide) (by decide) (by decide)
